import Mathlib

/-!
Verification of the ConfluenceMdExporter conversion pipeline.

The TypeScript sources (src/markdown-converter.ts, src/wikijs-client.ts) are
shallowly embedded here: strings are `List Char`, and each JavaScript
string-rewriting routine (regex `replace` passes, filename sanitizers, the
RGB color mapping, the link normalizer) is translated into an executable
Lean function that mirrors the source line by line.  JavaScript's global
`String.replace` is modelled by a leftmost, non-overlapping scan
(`replaceScan`); every fixed regex pattern used by the source is compiled by
hand into a deterministic matcher (each pattern is simple enough that its
greedy/lazy backtracking collapses to a deterministic scan, which is argued
in a comment next to the matcher).
-/

namespace ConfluenceMd

set_option maxRecDepth 4000

/-- Character list of a string literal (JavaScript strings are modelled as
`List Char`). -/
def str (s : String) : List Char := s.toList

/-- Does the text (second argument) begin with the pattern (first argument)? -/
def begins : List Char → List Char → Bool
  | [], _ => true
  | _ :: _, [] => false
  | p :: ps, c :: cs => p = c && begins ps cs

/-! ## RGB to semantic color mapping (claim C8)

`getColorName`, src/markdown-converter.ts lines 1061-1070, and the fallback
class token built by the `tableRow` rule, lines 435-439. -/

/-- Condition of the first threshold band of `getColorName` (line 1063):
`r >= 220 && g >= 240 && b >= 200` (light green / success). -/
def successBand (r g b : Nat) : Bool := 220 ≤ r && 240 ≤ g && 200 ≤ b

/-- Condition of the second threshold band (line 1064):
`r >= 250 && g >= 240 && b >= 160` (light yellow / warning). -/
def warningBand (r g b : Nat) : Bool := 250 ≤ r && 240 ≤ g && 160 ≤ b

/-- Condition of the third threshold band (line 1065):
`r >= 250 && g >= 230 && b >= 220` (light red or pink / error). -/
def errorBand (r g b : Nat) : Bool := 250 ≤ r && 230 ≤ g && 220 ≤ b

/-- Condition of the fourth threshold band (line 1066):
`r >= 240 && g >= 240 && b >= 240` (light gray / neutral). -/
def neutralBand (r g b : Nat) : Bool := 240 ≤ r && 240 ≤ g && 240 ≤ b

/-- Condition of the fifth threshold band (line 1067):
`r >= 220 && g >= 240 && b >= 250` (light blue / info). -/
def infoBand (r g b : Nat) : Bool := 220 ≤ r && 240 ≤ g && 250 ≤ b

/-- src/markdown-converter.ts lines 1061-1070, `getColorName`: an if-chain
over the five threshold bands, first match wins, `null` when none holds. -/
def getColorName (r g b : Nat) : Option (List Char) :=
  if successBand r g b then some (str "success")
  else if warningBand r g b then some (str "warning")
  else if errorBand r g b then some (str "error")
  else if neutralBand r g b then some (str "neutral")
  else if infoBand r g b then some (str "info")
  else none

/-- Decimal digits of a natural number, as characters. -/
def natChars (n : Nat) : List Char := Nat.toDigits 10 n

/-- The color-class token the `tableRow` rule attaches to a cell whose style
carries `background-color: rgb(r, g, b)` (src/markdown-converter.ts lines
435-439): the semantic name when `getColorName` recognizes the triple,
otherwise the explicit fallback token `color-R-G-B`. -/
def cellColorClass (r g b : Nat) : List Char :=
  match getColorName r g b with
  | some n => n
  | none => str "color-" ++ natChars r ++ str "-" ++ natChars g ++ str "-" ++ natChars b

/-- C8 counterexample.  The claim asserts the five threshold bands are
mutually exclusive ("at most one band's condition holds for any triple");
at the concrete triple (255, 255, 255) all five band conditions hold
simultaneously, so the bands are not mutually exclusive.  (The code is
still well defined because the if-chain picks the first band in priority
order.) -/
theorem c8_counterexample :
    successBand 255 255 255 = true ∧ warningBand 255 255 255 = true ∧
      errorBand 255 255 255 = true ∧ neutralBand 255 255 255 = true ∧
      infoBand 255 255 255 = true := by decide

/-- C8 amended: the five threshold bands overlap and are resolved by a fixed
priority order (success, warning, error, neutral, info) with first match
winning; any triple outside all five bands yields the explicit fallback
token `color-R-G-B`.  In particular RGB (230, 245, 210) maps to `success`
and RGB (10, 10, 10) maps to the fallback token `color-10-10-10`. -/
theorem c8_amended :
    getColorName 230 245 210 = some (str "success") ∧
      getColorName 10 10 10 = none ∧
      cellColorClass 230 245 210 = str "success" ∧
      cellColorClass 10 10 10 = str "color-10-10-10" := by decide

/-! ## HTML escaping (claim C10)

`escapeHtml`, src/markdown-converter.ts lines 178-187. -/

/-- The per-character map of `escapeHtml` (lines 179-185): the five mapped
characters become entities, every other character is kept. -/
def escChar (c : Char) : List Char :=
  if c = '&' then str "&amp;"
  else if c = '<' then str "&lt;"
  else if c = '>' then str "&gt;"
  else if c = '"' then str "&quot;"
  else if c = '\'' then str "&#039;"
  else [c]

/-- src/markdown-converter.ts lines 178-187, `escapeHtml`:
`text.replace(/[&<>"']/g, (m) => map[m])`.  The character class matches
single characters, so the global replace is a per-character expansion. -/
def escapeHtml (l : List Char) : List Char := (l.map escChar).flatten

/-- Does the text begin with the tail of one of the five entities introduced
by `escapeHtml` (everything after the leading ampersand)? -/
def entityAfterAmp (l : List Char) : Bool :=
  begins (str "amp;") l || begins (str "lt;") l || begins (str "gt;") l ||
    begins (str "quot;") l || begins (str "#039;") l

/-- Every occurrence of '&' in the list starts one of the five entities
introduced by `escapeHtml`. -/
def ampOk : List Char → Bool
  | [] => true
  | c :: t => (if c = '&' then entityAfterAmp t else true) && ampOk t

theorem escChar_no_raw (c : Char) :
    '<' ∉ escChar c ∧ '>' ∉ escChar c ∧ '"' ∉ escChar c ∧ '\'' ∉ escChar c := by
  unfold escChar
  split_ifs with h1 h2 h3 h4 h5 <;>
    first
      | decide
      | refine ⟨?_, ?_, ?_, ?_⟩ <;>
          · simp only [List.mem_singleton]
            intro hx
            subst hx
            simp_all

theorem ampOk_escChar (c : Char) (r : List Char) (h : ampOk r = true) :
    ampOk (escChar c ++ r) = true := by
  unfold escChar
  split_ifs with h1 h2 h3 h4 h5 <;>
    simp [str, ampOk, entityAfterAmp, begins, h] <;> simp [h1]

/-- C10: `escapeHtml` output contains no raw '<', '>', '"' or '\'', and every
'&' in the output is the start of one of the five entities introduced by the
escaper; hence a code-macro CDATA body, once escaped and embedded in the
synthesized `<pre><code>` element, cannot introduce new HTML elements into
the intermediate HTML. -/
theorem c10_escapeHtml_safe (s : List Char) :
    '<' ∉ escapeHtml s ∧ '>' ∉ escapeHtml s ∧ '"' ∉ escapeHtml s ∧
      '\'' ∉ escapeHtml s ∧ ampOk (escapeHtml s) = true := by
  induction s with
  | nil => decide
  | cons c t ih =>
    have hstep : escapeHtml (c :: t) = escChar c ++ escapeHtml t := by
      simp [escapeHtml]
    have hc := escChar_no_raw c
    refine hstep ▸ ⟨?_, ?_, ?_, ?_, ampOk_escChar c _ ih.2.2.2.2⟩ <;>
      simp_all [List.mem_append]

/-! ## Filename sanitization (claim C2)

`sanitizeFilename`, src/markdown-converter.ts lines 244-251, and
`sanitizeImageFilename`, lines 256-273. -/

/-- The invalid-character class `[<>:"/\\|?*]` of lines 246 and 267. -/
def invalidFileChar (c : Char) : Bool :=
  c = '<' || c = '>' || c = ':' || c = '"' || c = '/' || c = '\\' ||
    c = '|' || c = '?' || c = '*'

/-- JavaScript's `\s` character class (also the character set removed by
`String.trim`): ASCII whitespace, NBSP, BOM and the Unicode space
separators. -/
def jsWs (c : Char) : Bool :=
  c = ' ' || c = '\t' || c = '\n' || c = '\r' || c.toNat = 11 || c.toNat = 12 ||
    c.toNat = 0xa0 || c.toNat = 0x1680 ||
    (0x2000 ≤ c.toNat && c.toNat ≤ 0x200a) ||
    c.toNat = 0x2028 || c.toNat = 0x2029 || c.toNat = 0x202f ||
    c.toNat = 0x205f || c.toNat = 0x3000 || c.toNat = 0xfeff

/-- `.replace(/[<>:"\/\\|?*]/g, '_')` (line 246 / 267): each invalid
character becomes '_'. -/
def replaceInvalid (l : List Char) : List Char :=
  l.map (fun c => if invalidFileChar c then '_' else c)

/-- `.replace(/\s+/g, '_')` (line 247 / 268): every maximal whitespace run
becomes a single '_'.  The boolean state records whether the scan is inside
a whitespace run that has already emitted its '_'. -/
def collapseWsAux : Bool → List Char → List Char
  | _, [] => []
  | inRun, c :: t =>
    if jsWs c then
      (if inRun then collapseWsAux true t else '_' :: collapseWsAux true t)
    else c :: collapseWsAux false t

def collapseWs (l : List Char) : List Char := collapseWsAux false l

/-- `.replace(/_+/g, '_')` (line 248 / 269): every underscore run becomes a
single '_'. -/
def collapseUndAux : Bool → List Char → List Char
  | _, [] => []
  | inRun, c :: t =>
    if c = '_' then
      (if inRun then collapseUndAux true t else '_' :: collapseUndAux true t)
    else c :: collapseUndAux false t

def collapseUnd (l : List Char) : List Char := collapseUndAux false l

/-- Leading half of `.replace(/^_|_$/g, '')` (line 249 / 270): drop a single
leading underscore. -/
def dropLeadUnd : List Char → List Char
  | [] => []
  | c :: t => if c = '_' then t else c :: t

/-- Trailing half of `.replace(/^_|_$/g, '')`: drop a single trailing
underscore (on the string left after the leading half, matching the
behavior of the single global regex pass). -/
def dropTrailUnd : List Char → List Char
  | [] => []
  | [c] => if c = '_' then [] else [c]
  | c :: t => c :: dropTrailUnd t

def trimUnd (l : List Char) : List Char := dropTrailUnd (dropLeadUnd l)

/-- The sanitizing pipeline shared by `sanitizeFilename` (lines 245-249) and
the name part of `sanitizeImageFilename` (lines 266-270): invalid characters
to '_', whitespace runs to '_', collapse '_' runs, trim one leading and one
trailing '_'. -/
def sanitizeCore (l : List Char) : List Char :=
  trimUnd (collapseUnd (collapseWs (replaceInvalid l)))

/-- src/markdown-converter.ts lines 244-251, `sanitizeFilename`: the core
pipeline followed by `.substring(0, 200)`. -/
def sanitizeFilename (l : List Char) : List Char := (sanitizeCore l).take 200

/-- `filename.lastIndexOf('.')`-based split (lines 257-264): `some (n, e)`
with `l = n ++ '.' :: e` where the '.' is the last dot (so `e` is dot-free),
or `none` when `l` contains no dot. -/
def splitLastDot : List Char → Option (List Char × List Char)
  | [] => none
  | c :: t =>
    match splitLastDot t with
    | some (n, e) => some (c :: n, e)
    | none => if c = '.' then some ([], t) else none

/-- src/markdown-converter.ts lines 256-273, `sanitizeImageFilename`: with
no dot, fall back to `sanitizeFilename`; otherwise sanitize only the part
before the last dot, re-append the extension (from the last dot, inclusive)
unchanged, and cap the total at 200. -/
def sanitizeImageFilename (l : List Char) : List Char :=
  match splitLastDot l with
  | none => sanitizeFilename l
  | some (n, e) => (sanitizeCore n ++ '.' :: e).take 200

/-- C2 counterexample.  The claim asserts the output of
`sanitizeImageFilename` never contains a character from `<>:"/\|?*`; but
the extension (everything from the last dot on) is appended unsanitized
(line 272), so the input `a.b<c` is returned unchanged and the output
contains '<'.  This falsifies the no-invalid-characters conjunct of the
claim at a concrete input. -/
theorem c2_counterexample :
    sanitizeImageFilename (str "a.b<c") = str "a.b<c" ∧
      '<' ∈ sanitizeImageFilename (str "a.b<c") := by decide

/-! Invariants of the sanitizing pipeline, used to show that `sanitizeCore`
is a fixed point of itself and produces no invalid characters. -/

/-- Is the first character (if any) different from '_'? -/
def headNotUnd : List Char → Bool
  | [] => true
  | c :: _ => !(c = '_')

/-- Is the last character (if any) different from '_'? -/
def lastNotUnd : List Char → Bool
  | [] => true
  | [c] => !(c = '_')
  | _ :: t => lastNotUnd t

/-- No two adjacent underscores. -/
def noAdjUnd : List Char → Bool
  | [] => true
  | [_] => true
  | a :: b :: t => !(a = '_' && b = '_') && noAdjUnd (b :: t)

theorem mem_replaceInvalid {c : Char} {l : List Char} (h : c ∈ replaceInvalid l) :
    invalidFileChar c = false := by
  simp only [replaceInvalid, List.mem_map] at h
  obtain ⟨a, -, rfl⟩ := h
  by_cases ha : invalidFileChar a = true
  · simp only [ha, if_true]
    decide
  · simp only [Bool.not_eq_true] at ha
    simp [ha]

theorem mem_collapseWsAux {c : Char} (b : Bool) (l : List Char)
    (h : c ∈ collapseWsAux b l) : c ∈ l ∨ c = '_' := by
  induction l generalizing b with
  | nil => simp [collapseWsAux] at h
  | cons a t ih =>
    simp only [collapseWsAux] at h
    split_ifs at h with hw hb
    · rcases ih _ h with h' | h' <;> simp [h']
    · rcases List.mem_cons.mp h with rfl | h'
      · simp
      · rcases ih _ h' with h'' | h'' <;> simp [h'']
    · rcases List.mem_cons.mp h with rfl | h'
      · simp
      · rcases ih _ h' with h'' | h'' <;> simp [h'']

theorem collapseWsAux_no_ws {c : Char} (b : Bool) (l : List Char)
    (h : c ∈ collapseWsAux b l) : jsWs c = false := by
  induction l generalizing b with
  | nil => simp [collapseWsAux] at h
  | cons a t ih =>
    simp only [collapseWsAux] at h
    split_ifs at h with hw hb
    · exact ih _ h
    · rcases List.mem_cons.mp h with rfl | h'
      · decide
      · exact ih _ h'
    · rcases List.mem_cons.mp h with rfl | h'
      · simpa using hw
      · exact ih _ h'

theorem mem_collapseUndAux {c : Char} (b : Bool) (l : List Char)
    (h : c ∈ collapseUndAux b l) : c ∈ l ∨ c = '_' := by
  induction l generalizing b with
  | nil => simp [collapseUndAux] at h
  | cons a t ih =>
    simp only [collapseUndAux] at h
    split_ifs at h with hu hb
    · rcases ih _ h with h' | h' <;> simp [h']
    · rcases List.mem_cons.mp h with rfl | h'
      · simp
      · rcases ih _ h' with h'' | h'' <;> simp [h'']
    · rcases List.mem_cons.mp h with rfl | h'
      · simp
      · rcases ih _ h' with h'' | h'' <;> simp [h'']

theorem collapseUndAux_true_headNotUnd (l : List Char) :
    headNotUnd (collapseUndAux true l) = true := by
  induction l with
  | nil => decide
  | cons a t ih =>
    simp only [collapseUndAux]
    split_ifs with ha
    · exact ih
    · simp [headNotUnd, ha]

theorem noAdjUnd_tail {a : Char} {t : List Char} (h : noAdjUnd (a :: t) = true) :
    noAdjUnd t = true := by
  cases t with
  | nil => rfl
  | cons b t' =>
    simp only [noAdjUnd, Bool.and_eq_true] at h
    exact h.2

theorem noAdjUnd_cons_of {a : Char} {X : List Char} (hX : noAdjUnd X = true)
    (h : a = '_' → headNotUnd X = true) : noAdjUnd (a :: X) = true := by
  cases X with
  | nil => rfl
  | cons b t =>
    simp only [noAdjUnd, Bool.and_eq_true]
    refine ⟨?_, hX⟩
    by_cases ha : a = '_'
    · have hb := h ha
      simp only [headNotUnd] at hb
      simp only [ha]
      simpa using hb
    · simp [ha]

theorem noAdjUnd_collapseUndAux (b : Bool) (l : List Char) :
    noAdjUnd (collapseUndAux b l) = true := by
  induction l generalizing b with
  | nil => cases b <;> rfl
  | cons a t ih =>
    simp only [collapseUndAux]
    split_ifs with ha hb
    · exact ih true
    · exact noAdjUnd_cons_of (ih true) (fun _ => collapseUndAux_true_headNotUnd t)
    · exact noAdjUnd_cons_of (ih false) (fun h => absurd h ha)

theorem replaceInvalid_id {l : List Char} (h : ∀ c ∈ l, invalidFileChar c = false) :
    replaceInvalid l = l := by
  induction l with
  | nil => rfl
  | cons a t ih =>
    have ha : invalidFileChar a = false := h a (by simp)
    have ht := ih (fun c hc => h c (by simp [hc]))
    simp only [replaceInvalid, List.map_cons] at ht ⊢
    simp [ha, ht]

theorem collapseWsAux_id (b : Bool) {l : List Char}
    (h : ∀ c ∈ l, jsWs c = false) : collapseWsAux b l = l := by
  induction l generalizing b with
  | nil => rfl
  | cons a t ih =>
    have ha : jsWs a = false := h a (by simp)
    simp only [collapseWsAux, ha]
    simp only [Bool.false_eq_true, if_false]
    rw [ih false (fun c hc => h c (by simp [hc]))]

theorem collapseUndAux_id {l : List Char} (h : noAdjUnd l = true) :
    collapseUndAux false l = l ∧
      (headNotUnd l = true → collapseUndAux true l = l) := by
  induction l with
  | nil => exact ⟨rfl, fun _ => rfl⟩
  | cons a t ih =>
    have ht : noAdjUnd t = true := noAdjUnd_tail h
    obtain ⟨ihf, iht⟩ := ih ht
    constructor
    · by_cases ha : a = '_'
      · subst ha
        have hh : headNotUnd t = true := by
          cases t with
          | nil => rfl
          | cons b t' =>
            simp only [noAdjUnd, Bool.and_eq_true] at h
            simp only [headNotUnd]
            simpa using h.1
        simp [collapseUndAux, iht hh]
      · simp only [collapseUndAux, if_neg ha]
        rw [ihf]
    · intro hh
      have ha : ¬(a = '_') := by simpa [headNotUnd] using hh
      simp only [collapseUndAux, if_neg ha]
      rw [ihf]

theorem dropLeadUnd_id {l : List Char} (h : headNotUnd l = true) :
    dropLeadUnd l = l := by
  cases l with
  | nil => rfl
  | cons a t =>
    have ha : ¬(a = '_') := by simpa [headNotUnd] using h
    simp [dropLeadUnd, ha]

theorem dropTrailUnd_id {l : List Char} (h : lastNotUnd l = true) :
    dropTrailUnd l = l := by
  induction l with
  | nil => rfl
  | cons a t ih =>
    cases t with
    | nil =>
      have ha : ¬(a = '_') := by simpa [lastNotUnd] using h
      simp [dropTrailUnd, ha]
    | cons b t' =>
      have ht : lastNotUnd (b :: t') = true := by
        simpa [lastNotUnd] using h
      simp only [dropTrailUnd]
      rw [ih ht]

theorem mem_dropLeadUnd {c : Char} {l : List Char} (h : c ∈ dropLeadUnd l) : c ∈ l := by
  cases l with
  | nil => simpa [dropLeadUnd] using h
  | cons a t =>
    simp only [dropLeadUnd] at h
    split_ifs at h
    · exact List.mem_cons_of_mem _ h
    · exact h

theorem mem_dropTrailUnd {c : Char} {l : List Char} (h : c ∈ dropTrailUnd l) : c ∈ l := by
  induction l with
  | nil => simpa [dropTrailUnd] using h
  | cons a t ih =>
    cases t with
    | nil =>
      simp only [dropTrailUnd] at h
      split_ifs at h
      · simp at h
      · exact h
    | cons b t' =>
      simp only [dropTrailUnd] at h
      rcases List.mem_cons.mp h with rfl | h'
      · simp
      · exact List.mem_cons_of_mem _ (ih h')

theorem mem_trimUnd {c : Char} {l : List Char} (h : c ∈ trimUnd l) : c ∈ l :=
  mem_dropLeadUnd (mem_dropTrailUnd h)

theorem sanitizeCore_no_invalid {c : Char} (l : List Char)
    (h : c ∈ sanitizeCore l) : invalidFileChar c = false := by
  have h1 := mem_trimUnd h
  rcases mem_collapseUndAux _ _ h1 with h2 | rfl
  · rcases mem_collapseWsAux _ _ h2 with h3 | rfl
    · exact mem_replaceInvalid h3
    · decide
  · decide

theorem sanitizeCore_no_ws {c : Char} (l : List Char)
    (h : c ∈ sanitizeCore l) : jsWs c = false := by
  have h1 := mem_trimUnd h
  rcases mem_collapseUndAux _ _ h1 with h2 | rfl
  · exact collapseWsAux_no_ws _ _ h2
  · decide

theorem headNotUnd_dropTrailUnd {l : List Char} (h : headNotUnd l = true) :
    headNotUnd (dropTrailUnd l) = true := by
  cases l with
  | nil => rfl
  | cons a t =>
    cases t with
    | nil =>
      simp only [dropTrailUnd]
      split_ifs
      · rfl
      · exact h
    | cons b t' =>
      simpa only [dropTrailUnd, headNotUnd] using h

theorem headNotUnd_dropLeadUnd {l : List Char} (h : noAdjUnd l = true) :
    headNotUnd (dropLeadUnd l) = true := by
  cases l with
  | nil => rfl
  | cons a t =>
    simp only [dropLeadUnd]
    split_ifs with ha
    · subst ha
      cases t with
      | nil => rfl
      | cons b t' =>
        simp only [noAdjUnd, Bool.and_eq_true] at h
        simp only [headNotUnd]
        simpa using h.1
    · simpa [headNotUnd] using ha

theorem noAdjUnd_dropLeadUnd {l : List Char} (h : noAdjUnd l = true) :
    noAdjUnd (dropLeadUnd l) = true := by
  cases l with
  | nil => rfl
  | cons a t =>
    simp only [dropLeadUnd]
    split_ifs
    · exact noAdjUnd_tail h
    · exact h

theorem noAdjUnd_dropTrailUnd {l : List Char} (h : noAdjUnd l = true) :
    noAdjUnd (dropTrailUnd l) = true := by
  induction l with
  | nil => rfl
  | cons a t ih =>
    cases t with
    | nil =>
      simp only [dropTrailUnd]
      split_ifs <;> rfl
    | cons b t' =>
      have ht := noAdjUnd_tail h
      simp only [dropTrailUnd]
      refine noAdjUnd_cons_of (ih ht) (fun ha => ?_)
      subst ha
      have hb : ¬(b = '_') := by
        simp only [noAdjUnd, Bool.and_eq_true] at h
        simpa using h.1
      have hh : headNotUnd (b :: t') = true := by simp [headNotUnd, hb]
      exact headNotUnd_dropTrailUnd hh

theorem lastNotUnd_dropTrailUnd {l : List Char} (h : noAdjUnd l = true) :
    lastNotUnd (dropTrailUnd l) = true := by
  induction l with
  | nil => rfl
  | cons a t ih =>
    cases t with
    | nil =>
      simp only [dropTrailUnd]
      split_ifs with ha
      · rfl
      · simp [lastNotUnd, ha]
    | cons b t' =>
      have ht := noAdjUnd_tail h
      have ihx := ih ht
      simp only [dropTrailUnd]
      cases t' with
      | nil =>
        simp only [dropTrailUnd] at ihx ⊢
        split_ifs with hb
        · subst hb
          have ha : ¬(a = '_') := by
            simp only [noAdjUnd, Bool.and_eq_true] at h
            simpa using h.1
          simp [lastNotUnd, ha]
        · simp [lastNotUnd, hb]
      | cons x t'' =>
        simp only [dropTrailUnd] at ihx ⊢
        simpa [lastNotUnd] using ihx

theorem sanitizeCore_fix (l : List Char) :
    sanitizeCore (sanitizeCore l) = sanitizeCore l := by
  have hadj0 : noAdjUnd (collapseUnd (collapseWs (replaceInvalid l))) = true :=
    noAdjUnd_collapseUndAux false _
  have hadj : noAdjUnd (sanitizeCore l) = true :=
    noAdjUnd_dropTrailUnd (noAdjUnd_dropLeadUnd hadj0)
  have hhead : headNotUnd (sanitizeCore l) = true :=
    headNotUnd_dropTrailUnd (headNotUnd_dropLeadUnd hadj0)
  have hlast : lastNotUnd (sanitizeCore l) = true :=
    lastNotUnd_dropTrailUnd (noAdjUnd_dropLeadUnd hadj0)
  have hinv : ∀ c ∈ sanitizeCore l, invalidFileChar c = false :=
    fun c hc => sanitizeCore_no_invalid l hc
  have hws : ∀ c ∈ sanitizeCore l, jsWs c = false :=
    fun c hc => sanitizeCore_no_ws l hc
  show trimUnd (collapseUnd (collapseWs (replaceInvalid (sanitizeCore l)))) = sanitizeCore l
  rw [replaceInvalid_id hinv]
  rw [show collapseWs (sanitizeCore l) = sanitizeCore l from collapseWsAux_id false hws]
  rw [show collapseUnd (sanitizeCore l) = sanitizeCore l from (collapseUndAux_id hadj).1]
  show dropTrailUnd (dropLeadUnd (sanitizeCore l)) = sanitizeCore l
  rw [dropLeadUnd_id hhead, dropTrailUnd_id hlast]

theorem splitLastDot_eq_none {l : List Char} (h : '.' ∉ l) : splitLastDot l = none := by
  induction l with
  | nil => rfl
  | cons a t ih =>
    have ha : ¬(a = '.') := fun hh => h (by simp [hh])
    have ht := ih (fun hh => h (by simp [hh]))
    simp [splitLastDot, ht, ha]

theorem not_dot_of_splitLastDot_none {l : List Char} (h : splitLastDot l = none) :
    '.' ∉ l := by
  induction l with
  | nil => simp
  | cons a t ih =>
    simp only [splitLastDot] at h
    cases hs : splitLastDot t with
    | some p => rw [hs] at h; cases h
    | none =>
      rw [hs] at h
      split_ifs at h with ha
      intro hmem
      rcases List.mem_cons.mp hmem with rfl | hmem'
      · exact ha rfl
      · exact ih hs hmem'

theorem splitLastDot_some {l n e : List Char} (h : splitLastDot l = some (n, e)) :
    l = n ++ '.' :: e ∧ '.' ∉ e := by
  induction l generalizing n e with
  | nil => simp [splitLastDot] at h
  | cons a t ih =>
    simp only [splitLastDot] at h
    cases hs : splitLastDot t with
    | some p =>
      obtain ⟨n', e'⟩ := p
      rw [hs] at h
      simp only [Option.some.injEq, Prod.mk.injEq] at h
      obtain ⟨rfl, rfl⟩ := h
      obtain ⟨h1, h2⟩ := ih hs
      exact ⟨by simp [← h1], h2⟩
    | none =>
      rw [hs] at h
      split_ifs at h with ha
      simp only [Option.some.injEq, Prod.mk.injEq] at h
      obtain ⟨rfl, rfl⟩ := h
      exact ⟨by simp [ha], not_dot_of_splitLastDot_none hs⟩

theorem splitLastDot_append {x e : List Char} (he : '.' ∉ e) :
    splitLastDot (x ++ '.' :: e) = some (x, e) := by
  induction x with
  | nil =>
    simp only [List.nil_append, splitLastDot]
    rw [splitLastDot_eq_none he]
    simp
  | cons a t ih =>
    simp [splitLastDot, ih]

/-- C2 amended: `sanitizeImageFilename` always caps its output at 200
characters, and for a filename with an extension (a last dot), provided the
sanitized name plus the extension fit under the 200-character cap, the
function keeps the extension byte-for-byte (the output's suffix after its
last dot equals the input's suffix after its last dot), is idempotent, and
its output avoids the characters `<>:"/\|?*` whenever the (unsanitized,
verbatim-copied) extension does.  Unconditional idempotence, unconditional
extension preservation and the unconditional absence of invalid characters
all fail on the code (see the counterexample): the extension is appended
without sanitization and the 200-character cut can truncate it. -/
theorem c2_amended (f n e : List Char)
    (hsplit : splitLastDot f = some (n, e))
    (hfit : (sanitizeCore n).length + 1 + e.length ≤ 200) :
    (sanitizeImageFilename f).length ≤ 200 ∧
      sanitizeImageFilename f = sanitizeCore n ++ '.' :: e ∧
      splitLastDot (sanitizeImageFilename f) = some (sanitizeCore n, e) ∧
      sanitizeImageFilename (sanitizeImageFilename f) = sanitizeImageFilename f ∧
      ((∀ c ∈ e, invalidFileChar c = false) →
        ∀ c ∈ sanitizeImageFilename f, invalidFileChar c = false) := by
  have he : '.' ∉ e := (splitLastDot_some hsplit).2
  have hlen : (sanitizeCore n ++ '.' :: e).length ≤ 200 := by
    simp only [List.length_append, List.length_cons]
    omega
  have hout : sanitizeImageFilename f = sanitizeCore n ++ '.' :: e := by
    simp only [sanitizeImageFilename, hsplit]
    exact List.take_of_length_le hlen
  refine ⟨?_, hout, ?_, ?_, ?_⟩
  · rw [hout]
    simpa using hlen
  · rw [hout]
    exact splitLastDot_append he
  · rw [hout]
    have hfit2 : (sanitizeCore (sanitizeCore n) ++ '.' :: e).length ≤ 200 := by
      rw [sanitizeCore_fix]
      exact hlen
    simp only [sanitizeImageFilename, splitLastDot_append he]
    rw [List.take_of_length_le hfit2, sanitizeCore_fix]
  · intro hce c hc
    rw [hout] at hc
    rcases List.mem_append.mp hc with h1 | h2
    · exact sanitizeCore_no_invalid n h1
    · rcases List.mem_cons.mp h2 with rfl | h3
      · decide
      · exact hce c h3

/-- Witness for `c2_amended` at the concrete filename `my file.png`. -/
theorem c2_amended_witness :
    (sanitizeImageFilename (str "my file.png")).length ≤ 200 ∧
      sanitizeImageFilename (str "my file.png") =
        sanitizeCore (str "my file") ++ '.' :: str "png" ∧
      splitLastDot (sanitizeImageFilename (str "my file.png")) =
        some (sanitizeCore (str "my file"), str "png") ∧
      sanitizeImageFilename (sanitizeImageFilename (str "my file.png")) =
        sanitizeImageFilename (str "my file.png") ∧
      ((∀ c ∈ str "png", invalidFileChar c = false) →
        ∀ c ∈ sanitizeImageFilename (str "my file.png"), invalidFileChar c = false) :=
  c2_amended (str "my file.png") (str "my file") (str "png") (by decide) (by decide)

/-! ## URL-safe page paths (claim C9)

`sanitizePathSegment`, src/wikijs-client.ts lines 579-617, and
`sanitizePagePath`, lines 432-443. -/

/-- The transliteration table of src/wikijs-client.ts lines 581-596.  The
source applies the entries as successive global single-character replaces
(in object insertion order); since every replacement string is plain ASCII
and every pattern is a non-ASCII character, no replacement can create or
destroy a later pattern, so the sequence of replaces equals this single
per-character expansion. -/
def translit (c : Char) : List Char :=
  if c = 'ä' then str "ae" else if c = 'ö' then str "oe"
  else if c = 'ü' then str "ue" else if c = 'ß' then str "ss"
  else if c = 'Ä' then str "Ae" else if c = 'Ö' then str "Oe"
  else if c = 'Ü' then str "Ue"
  else if c = 'à' then str "a" else if c = 'á' then str "a"
  else if c = 'â' then str "a" else if c = 'ã' then str "a"
  else if c = 'å' then str "a"
  else if c = 'è' then str "e" else if c = 'é' then str "e"
  else if c = 'ê' then str "e" else if c = 'ë' then str "e"
  else if c = 'ì' then str "i" else if c = 'í' then str "i"
  else if c = 'î' then str "i" else if c = 'ï' then str "i"
  else if c = 'ò' then str "o" else if c = 'ó' then str "o"
  else if c = 'ô' then str "o" else if c = 'õ' then str "o"
  else if c = 'ù' then str "u" else if c = 'ú' then str "u"
  else if c = 'û' then str "u"
  else if c = 'ç' then str "c" else if c = 'ñ' then str "n"
  else if c = 'À' then str "A" else if c = 'Á' then str "A"
  else if c = 'Â' then str "A" else if c = 'Ã' then str "A"
  else if c = 'Å' then str "A"
  else if c = 'È' then str "E" else if c = 'É' then str "E"
  else if c = 'Ê' then str "E" else if c = 'Ë' then str "E"
  else if c = 'Ì' then str "I" else if c = 'Í' then str "I"
  else if c = 'Î' then str "I" else if c = 'Ï' then str "I"
  else if c = 'Ò' then str "O" else if c = 'Ó' then str "O"
  else if c = 'Ô' then str "O" else if c = 'Õ' then str "O"
  else if c = 'Ù' then str "U" else if c = 'Ú' then str "U"
  else if c = 'Û' then str "U"
  else if c = 'Ç' then str "C" else if c = 'Ñ' then str "N"
  else [c]

def translitList (l : List Char) : List Char := (l.map translit).flatten

/-- `sanitized.toLowerCase()` (line 606), restricted to ASCII.  For the
final output of `sanitizePathSegment` this is extensionally faithful: every
non-ASCII character that survives to this stage (the transliteration table
has already expanded the mapped ones) is deleted by the later `[^\w\-]`
filter whether or not it was case-mapped first, and `\w` is ASCII-only. -/
def toLowerAscii (c : Char) : Char :=
  if 'A' ≤ c && c ≤ 'Z' then Char.ofNat (c.toNat + 32) else c

def lowerMap (l : List Char) : List Char := l.map toLowerAscii

/-- The character class `[\s\/\\:*?"<>|]` of line 611. -/
def unsafePathChar (c : Char) : Bool :=
  jsWs c || c = '/' || c = '\\' || c = ':' || c = '*' || c = '?' ||
    c = '"' || c = '<' || c = '>' || c = '|'

/-- `.replace(/[\s\/\\:*?"<>|]+/g, '-')` (line 611): every maximal run of
unsafe characters becomes a single '-'. -/
def collapseUnsafeAux : Bool → List Char → List Char
  | _, [] => []
  | inRun, c :: t =>
    if unsafePathChar c then
      (if inRun then collapseUnsafeAux true t else '-' :: collapseUnsafeAux true t)
    else c :: collapseUnsafeAux false t

def collapseUnsafe (l : List Char) : List Char := collapseUnsafeAux false l

/-- JavaScript's `\w`: ASCII letters, digits and underscore. -/
def wordChar (c : Char) : Bool :=
  ('a' ≤ c && c ≤ 'z') || ('A' ≤ c && c ≤ 'Z') || ('0' ≤ c && c ≤ '9') || c = '_'

def pathKeep (c : Char) : Bool := wordChar c || c = '-'

/-- `.replace(/[^\w\-]/g, '')` (line 612): delete everything but word
characters and hyphens. -/
def keepWordHyphen (l : List Char) : List Char := l.filter pathKeep

/-- Line 613, the global replace turning every hyphen run into a single
'-'. -/
def collapseHyphAux : Bool → List Char → List Char
  | _, [] => []
  | inRun, c :: t =>
    if c = '-' then
      (if inRun then collapseHyphAux true t else '-' :: collapseHyphAux true t)
    else c :: collapseHyphAux false t

def collapseHyph (l : List Char) : List Char := collapseHyphAux false l

/-- `.replace(/^-|-$/g, '')` (line 614): drop a single leading and a single
trailing hyphen. -/
def dropLeadHyph : List Char → List Char
  | [] => []
  | c :: t => if c = '-' then t else c :: t

def dropTrailHyph : List Char → List Char
  | [] => []
  | [c] => if c = '-' then [] else [c]
  | c :: t => c :: dropTrailHyph t

def trimHyph (l : List Char) : List Char := dropTrailHyph (dropLeadHyph l)

/-- The stages of `sanitizePathSegment` after transliteration (lines
606-614). -/
def pathClean (l : List Char) : List Char :=
  trimHyph (collapseHyph (keepWordHyphen (collapseUnsafe (lowerMap l))))

/-- src/wikijs-client.ts lines 579-617, `sanitizePathSegment`. -/
def sanitizePathSegment (l : List Char) : List Char := pathClean (translitList l)

/-- src/wikijs-client.ts lines 432-443, `sanitizePagePath`: sanitize the
title, prepending the sanitized space key (when given) with a '/'. -/
def sanitizePagePath (title : List Char) (spaceKey : Option (List Char)) : List Char :=
  match spaceKey with
  | none => sanitizePathSegment title
  | some k => sanitizePathSegment k ++ '/' :: sanitizePathSegment title

/-! Survival of a block of clean characters through the `pathClean`
stages. -/

theorem map_eq_self_of {f : Char → Char} {w : List Char}
    (h : ∀ c ∈ w, f c = c) : w.map f = w := by
  induction w with
  | nil => rfl
  | cons a t ih =>
    simp only [List.map_cons]
    rw [h a (by simp), ih (fun c hc => h c (by simp [hc]))]

theorem collapseUnsafeAux_block {w : List Char} (hw : w ≠ [])
    (hc : ∀ c ∈ w, unsafePathChar c = false) (b : Bool) (s : List Char) :
    collapseUnsafeAux b (w ++ s) = w ++ collapseUnsafeAux false s := by
  induction w generalizing b with
  | nil => exact absurd rfl hw
  | cons c w' ih =>
    have hcc : unsafePathChar c = false := hc c (by simp)
    show collapseUnsafeAux b (c :: (w' ++ s)) = c :: (w' ++ collapseUnsafeAux false s)
    rw [show collapseUnsafeAux b (c :: (w' ++ s)) =
      c :: collapseUnsafeAux false (w' ++ s) from by simp [collapseUnsafeAux, hcc]]
    cases w' with
    | nil => simp
    | cons d w'' =>
      rw [ih (by simp) (fun x hx => hc x (List.mem_cons_of_mem _ hx)) false]

theorem collapseUnsafeAux_infix {w : List Char} (hw : w ≠ [])
    (hc : ∀ c ∈ w, unsafePathChar c = false) (u : List Char) (b : Bool) (s : List Char) :
    ∃ p, collapseUnsafeAux b (u ++ w ++ s) = p ++ w ++ collapseUnsafeAux false s := by
  induction u generalizing b with
  | nil =>
    exact ⟨[], by simpa using collapseUnsafeAux_block hw hc b s⟩
  | cons c u' ih =>
    show ∃ p, collapseUnsafeAux b (c :: (u' ++ w ++ s)) = p ++ w ++ collapseUnsafeAux false s
    by_cases h1 : unsafePathChar c = true
    · cases b with
      | true =>
        rw [show collapseUnsafeAux true (c :: (u' ++ w ++ s)) =
          collapseUnsafeAux true (u' ++ w ++ s) from by simp [collapseUnsafeAux, h1]]
        exact ih true
      | false =>
        rw [show collapseUnsafeAux false (c :: (u' ++ w ++ s)) =
          '-' :: collapseUnsafeAux true (u' ++ w ++ s) from by simp [collapseUnsafeAux, h1]]
        obtain ⟨p, hp⟩ := ih true
        exact ⟨'-' :: p, by rw [hp]; simp⟩
    · rw [show collapseUnsafeAux b (c :: (u' ++ w ++ s)) =
        c :: collapseUnsafeAux false (u' ++ w ++ s) from by
          simp only [Bool.not_eq_true] at h1
          simp [collapseUnsafeAux, h1]]
      obtain ⟨p, hp⟩ := ih false
      exact ⟨c :: p, by rw [hp]; simp⟩

theorem collapseHyphAux_block {w : List Char} (hw : w ≠ [])
    (hc : ∀ c ∈ w, ¬(c = '-')) (b : Bool) (s : List Char) :
    collapseHyphAux b (w ++ s) = w ++ collapseHyphAux false s := by
  induction w generalizing b with
  | nil => exact absurd rfl hw
  | cons c w' ih =>
    have hcc : ¬(c = '-') := hc c (by simp)
    show collapseHyphAux b (c :: (w' ++ s)) = c :: (w' ++ collapseHyphAux false s)
    rw [show collapseHyphAux b (c :: (w' ++ s)) =
      c :: collapseHyphAux false (w' ++ s) from by simp [collapseHyphAux, hcc]]
    cases w' with
    | nil => simp
    | cons d w'' =>
      rw [ih (by simp) (fun x hx => hc x (List.mem_cons_of_mem _ hx)) false]

theorem collapseHyphAux_infix {w : List Char} (hw : w ≠ [])
    (hc : ∀ c ∈ w, ¬(c = '-')) (u : List Char) (b : Bool) (s : List Char) :
    ∃ p, collapseHyphAux b (u ++ w ++ s) = p ++ w ++ collapseHyphAux false s := by
  induction u generalizing b with
  | nil =>
    exact ⟨[], by simpa using collapseHyphAux_block hw hc b s⟩
  | cons c u' ih =>
    show ∃ p, collapseHyphAux b (c :: (u' ++ w ++ s)) = p ++ w ++ collapseHyphAux false s
    by_cases h1 : c = '-'
    · cases b with
      | true =>
        rw [show collapseHyphAux true (c :: (u' ++ w ++ s)) =
          collapseHyphAux true (u' ++ w ++ s) from by simp [collapseHyphAux, h1]]
        exact ih true
      | false =>
        rw [show collapseHyphAux false (c :: (u' ++ w ++ s)) =
          '-' :: collapseHyphAux true (u' ++ w ++ s) from by simp [collapseHyphAux, h1]]
        obtain ⟨p, hp⟩ := ih true
        exact ⟨'-' :: p, by rw [hp]; simp⟩
    · rw [show collapseHyphAux b (c :: (u' ++ w ++ s)) =
        c :: collapseHyphAux false (u' ++ w ++ s) from by simp [collapseHyphAux, h1]]
      obtain ⟨p, hp⟩ := ih false
      exact ⟨c :: p, by rw [hp]; simp⟩

theorem dropLeadHyph_infix {w : List Char} (hw : w ≠ [])
    (hhead : ∀ c ∈ w, ¬(c = '-')) (u s : List Char) :
    ∃ p, dropLeadHyph (u ++ w ++ s) = p ++ w ++ s := by
  cases u with
  | nil =>
    cases w with
    | nil => exact absurd rfl hw
    | cons c w' =>
      have hcc : ¬(c = '-') := hhead c (by simp)
      exact ⟨[], by simp [dropLeadHyph, hcc]⟩
  | cons c u' =>
    simp only [List.cons_append, dropLeadHyph]
    split_ifs with h1
    · exact ⟨u', rfl⟩
    · exact ⟨c :: u', rfl⟩

theorem dropTrailHyph_cons (c : Char) {l : List Char} (h : l ≠ []) :
    dropTrailHyph (c :: l) = c :: dropTrailHyph l := by
  cases l with
  | nil => exact absurd rfl h
  | cons d t => rfl

theorem dropTrailHyph_infix {w : List Char} (hw : w ≠ [])
    (hc : ∀ c ∈ w, ¬(c = '-')) (u s : List Char) :
    ∃ s', dropTrailHyph (u ++ w ++ s) = u ++ w ++ s' := by
  induction u with
  | nil =>
    simp only [List.nil_append]
    induction w with
    | nil => exact absurd rfl hw
    | cons c w' ihw =>
      cases w' with
      | nil =>
        cases s with
        | nil =>
          have hcc : ¬(c = '-') := hc c (by simp)
          exact ⟨[], by simp [dropTrailHyph, hcc]⟩
        | cons x s0 =>
          rw [List.singleton_append, dropTrailHyph_cons c (by simp)]
          exact ⟨dropTrailHyph (x :: s0), rfl⟩
      | cons d w'' =>
        obtain ⟨s', hs'⟩ := ihw (by simp) (fun x hx => hc x (by simp [List.mem_cons] at hx ⊢; tauto))
        rw [List.cons_append, dropTrailHyph_cons c (by simp), hs']
        exact ⟨s', by simp⟩
  | cons c u' ih =>
    obtain ⟨s', hs'⟩ := ih
    have hne : u' ++ w ++ s ≠ [] := by
      simp only [List.append_assoc]
      intro hcontra
      rcases List.append_eq_nil.mp hcontra with ⟨-, h2⟩
      exact hw (List.append_eq_nil.mp h2).1
    rw [List.cons_append, List.cons_append, dropTrailHyph_cons c (by simpa using hne)]
    exact ⟨s', by rw [hs']; simp⟩

/-- A nonempty block `w` of clean characters (fixed by ASCII lowercasing,
not in the unsafe class, kept by the word-or-hyphen filter, and not
hyphens) survives the post-transliteration stages of `sanitizePathSegment`
contiguously. -/
theorem pathClean_block {w : List Char} (hw : w ≠ [])
    (h1 : ∀ c ∈ w, toLowerAscii c = c)
    (h2 : ∀ c ∈ w, unsafePathChar c = false)
    (h3 : ∀ c ∈ w, pathKeep c = true)
    (h4 : ∀ c ∈ w, ¬(c = '-'))
    (u v : List Char) :
    ∃ p s, pathClean (u ++ w ++ v) = p ++ w ++ s := by
  have hlow : lowerMap (u ++ w ++ v) = lowerMap u ++ w ++ lowerMap v := by
    simp only [lowerMap, List.map_append]
    rw [map_eq_self_of h1]
  obtain ⟨p1, hp1⟩ := collapseUnsafeAux_infix hw h2 (lowerMap u) false (lowerMap v)
  have hfil : keepWordHyphen (p1 ++ w ++ collapseUnsafeAux false (lowerMap v)) =
      keepWordHyphen p1 ++ w ++ keepWordHyphen (collapseUnsafeAux false (lowerMap v)) := by
    simp only [keepWordHyphen, List.filter_append]
    congr 1
    congr 1
    exact List.filter_eq_self.mpr h3
  obtain ⟨p2, hp2⟩ := collapseHyphAux_infix hw h4 (keepWordHyphen p1) false
    (keepWordHyphen (collapseUnsafeAux false (lowerMap v)))
  obtain ⟨p3, hp3⟩ := dropLeadHyph_infix hw h4 p2
    (collapseHyphAux false (keepWordHyphen (collapseUnsafeAux false (lowerMap v))))
  obtain ⟨s4, hp4⟩ := dropTrailHyph_infix hw h4 p3
    (collapseHyphAux false (keepWordHyphen (collapseUnsafeAux false (lowerMap v))))
  refine ⟨p3, s4, ?_⟩
  show trimHyph (collapseHyph (keepWordHyphen (collapseUnsafe (lowerMap (u ++ w ++ v))))) = _
  rw [hlow]
  show trimHyph (collapseHyph (keepWordHyphen (collapseUnsafeAux false (lowerMap u ++ w ++ lowerMap v)))) = _
  rw [hp1, hfil]
  show trimHyph (collapseHyphAux false (keepWordHyphen p1 ++ w ++ keepWordHyphen (collapseUnsafeAux false (lowerMap v)))) = _
  rw [hp2]
  show dropTrailHyph (dropLeadHyph (p2 ++ w ++ _)) = _
  rw [hp3, hp4]

/-- Distribution of the transliteration expansion over a marked character. -/
theorem translitList_append (xs : List Char) (c : Char) (ys : List Char) :
    translitList (xs ++ c :: ys) = translitList xs ++ translit c ++ translitList ys := by
  simp [translitList, List.map_append]

/-- C9: `sanitizePagePath` transliterates accented and umlaut characters to
their ASCII equivalents before hyphenating: for every title containing 'ä'
the letters "ae" appear contiguously in the output (rather than the
character being dropped), and likewise 'é' contributes an 'e'; concretely,
the title `Über Café` yields the path `ueber-cafe`. -/
theorem c9_sanitizePagePath_translit (sk : Option (List Char)) (xs ys : List Char) :
    (∃ p s, sanitizePagePath (xs ++ 'ä' :: ys) sk = p ++ 'a' :: 'e' :: s) ∧
      (∃ p s, sanitizePagePath (xs ++ 'é' :: ys) sk = p ++ 'e' :: s) ∧
      sanitizePathSegment (str "Über Café") = str "ueber-cafe" := by
  have hae : ∀ xs ys : List Char,
      ∃ p s, sanitizePathSegment (xs ++ 'ä' :: ys) = p ++ ('a' :: 'e' :: []) ++ s := by
    intro xs ys
    have hx : sanitizePathSegment (xs ++ 'ä' :: ys) =
        pathClean (translitList xs ++ ('a' :: 'e' :: []) ++ translitList ys) := by
      show pathClean (translitList (xs ++ 'ä' :: ys)) = _
      rw [translitList_append]
      rfl
    rw [hx]
    exact pathClean_block (by simp) (by decide) (by decide) (by decide) (by decide) _ _
  have he : ∀ xs ys : List Char,
      ∃ p s, sanitizePathSegment (xs ++ 'é' :: ys) = p ++ ('e' :: []) ++ s := by
    intro xs ys
    have hx : sanitizePathSegment (xs ++ 'é' :: ys) =
        pathClean (translitList xs ++ ('e' :: []) ++ translitList ys) := by
      show pathClean (translitList (xs ++ 'é' :: ys)) = _
      rw [translitList_append]
      rfl
    rw [hx]
    exact pathClean_block (by simp) (by decide) (by decide) (by decide) (by decide) _ _
  refine ⟨?_, ?_, by decide⟩
  · cases sk with
    | none =>
      obtain ⟨p, s, hps⟩ := hae xs ys
      exact ⟨p, s, by simpa using hps⟩
    | some k =>
      obtain ⟨p, s, hps⟩ := hae xs ys
      refine ⟨sanitizePathSegment k ++ '/' :: p, s, ?_⟩
      simp only [sanitizePagePath, hps]
      simp
  · cases sk with
    | none =>
      obtain ⟨p, s, hps⟩ := he xs ys
      exact ⟨p, s, by simpa using hps⟩
    | some k =>
      obtain ⟨p, s, hps⟩ := he xs ys
      refine ⟨sanitizePathSegment k ++ '/' :: p, s, ?_⟩
      simp only [sanitizePagePath, hps]
      simp

/-! ## The global-replace scan

JavaScript's `String.replace` with a `g`-flagged pattern finds the leftmost
match, emits the replacement, and resumes immediately after the matched
text.  All patterns used by the source match at least one character, so the
scan below asks the matcher for a replacement and the match length minus
one. -/

/-- Leftmost, non-overlapping global replace, with explicit fuel so that the
recursion is structural (and hence evaluates inside the kernel).  The
matcher `m` receives the remaining text; on a match it returns the
replacement and the number of characters consumed beyond the first (every
match consumes at least one character, so fuel equal to the text length is
always sufficient — `replaceScanFuel_eq` below makes the fuel irrelevant). -/
def replaceScanFuel (m : List Char → Option (List Char × Nat)) :
    Nat → List Char → List Char
  | _, [] => []
  | 0, l => l
  | fuel + 1, c :: rest =>
    match m (c :: rest) with
    | some (rep, n) => rep ++ replaceScanFuel m fuel (rest.drop n)
    | none => c :: replaceScanFuel m fuel rest

def replaceScan (m : List Char → Option (List Char × Nat)) (l : List Char) :
    List Char := replaceScanFuel m l.length l

theorem replaceScanFuel_eq (m : List Char → Option (List Char × Nat)) :
    ∀ (f1 : Nat) (f2 : Nat) (l : List Char), l.length ≤ f1 → l.length ≤ f2 →
      replaceScanFuel m f1 l = replaceScanFuel m f2 l := by
  intro f1
  induction f1 with
  | zero =>
    intro f2 l h1 _
    have hl : l = [] := List.eq_nil_of_length_eq_zero (Nat.le_zero.mp h1)
    subst hl
    cases f2 <;> rfl
  | succ f1 ih =>
    intro f2 l h1 h2
    cases l with
    | nil => cases f2 <;> rfl
    | cons c rest =>
      cases f2 with
      | zero => simp at h2
      | succ f2' =>
        show (match m (c :: rest) with
          | some (rep, n) => rep ++ replaceScanFuel m f1 (rest.drop n)
          | none => c :: replaceScanFuel m f1 rest) =
          (match m (c :: rest) with
          | some (rep, n) => rep ++ replaceScanFuel m f2' (rest.drop n)
          | none => c :: replaceScanFuel m f2' rest)
        simp only [List.length_cons] at h1 h2
        cases hm : m (c :: rest) with
        | none =>
          simp only []
          rw [ih f2' rest (by omega) (by omega)]
        | some pr =>
          obtain ⟨rep, n⟩ := pr
          simp only []
          rw [ih f2' (rest.drop n)
            (by simp only [List.length_drop]; omega)
            (by simp only [List.length_drop]; omega)]

/-- Adapter from a matcher that returns the rest of the text after the match
(the natural shape for the hand-compiled regex matchers below): the match
length is recovered from the length difference. -/
def toMatcher (p : List Char → Option (List Char × List Char))
    (l : List Char) : Option (List Char × Nat) :=
  match p l with
  | some (rep, rest) => some (rep, l.length - rest.length - 1)
  | none => none

def replacePass (p : List Char → Option (List Char × List Char))
    (l : List Char) : List Char := replaceScan (toMatcher p) l

theorem replaceScan_nil (m : List Char → Option (List Char × Nat)) :
    replaceScan m [] = [] := rfl

theorem replaceScan_cons (m : List Char → Option (List Char × Nat))
    (c : Char) (rest : List Char) :
    replaceScan m (c :: rest) =
      match m (c :: rest) with
      | some (rep, n) => rep ++ replaceScan m (rest.drop n)
      | none => c :: replaceScan m rest := by
  show (match m (c :: rest) with
    | some (rep, n) => rep ++ replaceScanFuel m rest.length (rest.drop n)
    | none => c :: replaceScanFuel m rest.length rest) = _
  cases hm : m (c :: rest) with
  | none => rfl
  | some pr =>
    obtain ⟨rep, n⟩ := pr
    simp only []
    rw [show replaceScan m (rest.drop n) =
      replaceScanFuel m (rest.drop n).length (rest.drop n) from rfl]
    rw [replaceScanFuel_eq m rest.length (rest.drop n).length (rest.drop n)
      (by simp only [List.length_drop]; omega) (Nat.le_refl _)]

/-- A pattern that matches at no position leaves the text unchanged. -/
theorem replaceScan_id {m : List Char → Option (List Char × Nat)} :
    ∀ (l : List Char), (∀ i, m (l.drop i) = none) → replaceScan m l = l := by
  intro l
  induction l with
  | nil => intro _; rw [replaceScan_nil]
  | cons c rest ih =>
    intro h
    have h0 := h 0
    simp only [List.drop_zero] at h0
    rw [replaceScan_cons, h0]
    show c :: replaceScan m rest = c :: rest
    rw [ih (fun i => by have hi := h (i + 1); simpa using hi)]

/-- Exact-literal matcher: consume the pattern, return the rest. -/
def lit : List Char → List Char → Option (List Char)
  | [], l => some l
  | _ :: _, [] => none
  | p :: ps, c :: cs => if c = p then lit ps cs else none

/-! ## Destination format adapter (claim C3)

`convertToWikiJsMarkdown`, src/markdown-converter.ts lines 916-946: four
global regex replaces followed by a trim. -/

/-- Shared matcher for the comment patterns of lines 920 and 940: after the
given literal prefix, `[^>]+ -->` followed by an optional newline.  The
greedy `[^>]+` cannot cross the first '>' of the remaining text, and the
closing ` -->` must place its '>' exactly at that first '>', so the regex
match is determined by scanning character by character: fail on a bare '>',
succeed on ` -->` once at least one body character has been consumed. -/
def scanCommentEnd : Nat → List Char → Option (List Char)
  | _, [] => none
  | k, c :: t =>
    if begins (str " -->") (c :: t) && 0 < k then some ((c :: t).drop 4)
    else if c = '>' then none
    else scanCommentEnd (k + 1) t

/-- Optional trailing newline (`\n?`). -/
def optNl : List Char → List Char
  | '\n' :: t => t
  | l => l

/-- Line 920: `<!-- Confluence [^>]+ -->\n?` replaced by the empty string. -/
def pass1At (l : List Char) : Option (List Char × List Char) :=
  match lit (str "<!-- Confluence ") l with
  | none => none
  | some t =>
    match scanCommentEnd 0 t with
    | none => none
    | some r => some ([], optNl r)

/-- Greedy `\w+` (at least one word character); deterministic because the
character after the run is never a word character. -/
def wordRun (l : List Char) : Option (List Char × List Char) :=
  match l.takeWhile wordChar with
  | [] => none
  | w => some (w, l.drop w.length)

/-- The closing part `\n<!-- End \w+ -->` of the macro-comment pattern of
lines 923-924. -/
def endTagAt (l : List Char) : Option (List Char) :=
  match lit (str "\n<!-- End ") l with
  | none => none
  | some t =>
    match wordRun t with
    | none => none
    | some (_, t2) => lit (str " -->") t2

/-- The lazy `(.*?)` of line 924 (with the `s` flag, so '.' also matches
newlines): the shortest content whose end position starts the closing
pattern. -/
def lazyContent : List Char → Option (List Char × List Char)
  | [] => none
  | c :: t =>
    match endTagAt (c :: t) with
    | some r => some ([], r)
    | none =>
      match lazyContent t with
      | some (content, r) => some (c :: content, r)
      | none => none

/-- `content.replace(/\n/g, '\n> ')` (lines 928-934). -/
def quoteLines (l : List Char) : List Char :=
  (l.map (fun c => if c = '\n' then str "\n> " else [c])).flatten

def lowerList (l : List Char) : List Char := l.map toLowerAscii

/-- The `switch (macroName.toLowerCase())` of lines 926-935: label for the
blockquote; unrecognized names keep their original spelling. -/
def macroLabel (name : List Char) : List Char :=
  if lowerList name = str "info" then str "Info"
  else if lowerList name = str "warning" then str "Warning"
  else if lowerList name = str "note" then str "Note"
  else name

/-- The replacement string of lines 925-936. -/
def macroQuote (name content : List Char) : List Char :=
  str "> **" ++ macroLabel name ++ str "**\n> " ++ quoteLines content ++ str "\n"

/-- Lines 923-937: `<!-- Confluence Macro: (\w+) -->\n(.*?)\n<!-- End \w+ -->`
(flags `gs`) replaced by a blockquote callout. -/
def pass2At (l : List Char) : Option (List Char × List Char) :=
  match lit (str "<!-- Confluence Macro: ") l with
  | none => none
  | some t =>
    match wordRun t with
    | none => none
    | some (name, t2) =>
      match lit (str " -->\n") t2 with
      | none => none
      | some t3 =>
        match lazyContent t3 with
        | none => none
        | some (content, r) => some (macroQuote name content, r)

/-- Line 940: `<!-- [^>]+ -->\n?` replaced by the empty string. -/
def pass3At (l : List Char) : Option (List Char × List Char) :=
  match lit (str "<!-- ") l with
  | none => none
  | some t =>
    match scanCommentEnd 0 t with
    | none => none
    | some r => some ([], optNl r)

/-- Line 943: `\n{3,}` replaced by two newlines; the greedy quantifier
consumes the whole newline run. -/
def pass4At : List Char → Option (List Char × List Char)
  | a :: b :: c :: t =>
    if a = '\n' && b = '\n' && c = '\n' then
      some (str "\n\n", t.dropWhile (fun x => x = '\n'))
    else none
  | _ => none

/-- Removal of a maximal whitespace suffix (the trailing half of
`String.trim`, line 945). -/
def jsTrimEnd : List Char → List Char
  | [] => []
  | c :: t =>
    match jsTrimEnd t with
    | [] => if jsWs c then [] else [c]
    | r => c :: r

/-- `String.trim` (line 945): remove leading and trailing whitespace. -/
def jsTrim (l : List Char) : List Char := jsTrimEnd (l.dropWhile jsWs)

/-- src/markdown-converter.ts lines 916-946, `convertToWikiJsMarkdown`:
strip Confluence comments, convert macro-comment pairs to blockquotes,
strip remaining comments, collapse runs of three or more newlines to two,
and trim. -/
def convertToWikiJsMarkdown (l : List Char) : List Char :=
  jsTrim (replacePass pass4At
    (replacePass pass3At (replacePass pass2At (replacePass pass1At l))))

/-- C3 counterexample.  The claim asserts idempotence for every input.  On
the input `<!<!-- a -->-- Confluence x -->` the third pass (generic comment
removal) deletes the embedded `<!-- a -->`, splicing the surrounding text
into the brand-new comment `<!-- Confluence x -->`, which the first pass
then deletes on a second run; so applying the adapter twice differs from
applying it once. -/
theorem c3_counterexample :
    convertToWikiJsMarkdown (str "<!<!-- a -->-- Confluence x -->") =
      str "<!-- Confluence x -->" ∧
    convertToWikiJsMarkdown (convertToWikiJsMarkdown
      (str "<!<!-- a -->-- Confluence x -->")) = [] ∧
    convertToWikiJsMarkdown (convertToWikiJsMarkdown
        (str "<!<!-- a -->-- Confluence x -->")) ≠
      convertToWikiJsMarkdown (str "<!<!-- a -->-- Confluence x -->") := by
  refine ⟨by decide, by decide, ?_⟩
  intro h
  rw [show convertToWikiJsMarkdown (convertToWikiJsMarkdown
      (str "<!<!-- a -->-- Confluence x -->")) = [] from by decide] at h
  rw [show convertToWikiJsMarkdown (str "<!<!-- a -->-- Confluence x -->") =
      str "<!-- Confluence x -->" from by decide] at h
  exact absurd h (by decide)

/-! Toward the amended C3: the adapter is idempotent on inputs free of the
two-character sequence `<!` (and its own first-pass output stays free of it
only when the input already was, which is exactly what the counterexample
exploits). -/

/-- Does the text contain the two-character sequence `<!` anywhere? -/
def hasLtBang : List Char → Bool
  | [] => false
  | [_] => false
  | a :: b :: t => (a = '<' && b = '!') || hasLtBang (b :: t)

/-- Does the text contain three consecutive newlines anywhere? (Negated.) -/
def no3nl : List Char → Bool
  | [] => true
  | [_] => true
  | [_, _] => true
  | a :: b :: c :: t =>
    !(a = '\n' && b = '\n' && c = '\n') && no3nl (b :: c :: t)

/-- Do the first two characters both equal '\n'? -/
def nl2 : List Char → Bool
  | a :: b :: _ => a = '\n' && b = '\n'
  | _ => false

/-- Is the first character equal to `x`? -/
def headIs (x : Char) : List Char → Bool
  | [] => false
  | c :: _ => c = x

/-- Is the last character (if any) not whitespace? -/
def lastNotWs : List Char → Bool
  | [] => true
  | [c] => !(jsWs c)
  | _ :: t => lastNotWs t

theorem hasLtBang_tail {a : Char} {t : List Char} (h : hasLtBang (a :: t) = false) :
    hasLtBang t = false := by
  cases t with
  | nil => rfl
  | cons b t' =>
    simp only [hasLtBang, Bool.or_eq_false_iff] at h
    exact h.2

theorem hasLtBang_drop {l : List Char} (h : hasLtBang l = false) (i : Nat) :
    hasLtBang (l.drop i) = false := by
  induction l generalizing i with
  | nil => simp [h]
  | cons a t ih =>
    cases i with
    | zero => exact h
    | succ i' => exact ih (hasLtBang_tail h) i'

theorem hasLtBang_append_left {a : List Char} (b : List Char)
    (h : hasLtBang a = true) : hasLtBang (a ++ b) = true := by
  induction a with
  | nil => simp [hasLtBang] at h
  | cons x a' ih =>
    cases a' with
    | nil => simp [hasLtBang] at h
    | cons y t =>
      simp only [hasLtBang, Bool.or_eq_true] at h
      rcases h with h | h
      · show hasLtBang (x :: y :: (t ++ b)) = true
        simp only [hasLtBang, Bool.or_eq_true]
        exact Or.inl h
      · show hasLtBang (x :: y :: (t ++ b)) = true
        simp only [hasLtBang, Bool.or_eq_true]
        exact Or.inr (ih h)

theorem hasLtBang_of_append {a b : List Char} (h : hasLtBang (a ++ b) = false) :
    hasLtBang a = false := by
  by_contra hc
  simp only [Bool.not_eq_false] at hc
  rw [hasLtBang_append_left b hc] at h
  cases h

theorem hasLtBang_cons_of {a : Char} {w : List Char} (ha : ¬(a = '<'))
    (hw : hasLtBang w = false) : hasLtBang (a :: w) = false := by
  cases w with
  | nil => rfl
  | cons b t =>
    simp only [hasLtBang, Bool.or_eq_false_iff]
    exact ⟨by simp [ha], hw⟩

theorem lit_cons {p : Char} {ps l r : List Char}
    (h : lit (p :: ps) l = some r) : ∃ cs, l = p :: cs ∧ lit ps cs = some r := by
  cases l with
  | nil => simp [lit] at h
  | cons c cs =>
    simp only [lit] at h
    split_ifs at h with hc
    · exact ⟨cs, by rw [hc], h⟩

theorem pass1At_starts {l : List Char} {pr : List Char × List Char}
    (h : pass1At l = some pr) : ∃ t, l = '<' :: '!' :: t := by
  simp only [pass1At] at h
  cases hl : lit (str "<!-- Confluence ") l with
  | none => rw [hl] at h; cases h
  | some t0 =>
    obtain ⟨c1, hc1, h1⟩ := lit_cons hl
    obtain ⟨c2, hc2, -⟩ := lit_cons h1
    exact ⟨c2, by rw [hc1, hc2]⟩

theorem pass2At_starts {l : List Char} {pr : List Char × List Char}
    (h : pass2At l = some pr) : ∃ t, l = '<' :: '!' :: t := by
  simp only [pass2At] at h
  cases hl : lit (str "<!-- Confluence Macro: ") l with
  | none => rw [hl] at h; cases h
  | some t0 =>
    obtain ⟨c1, hc1, h1⟩ := lit_cons hl
    obtain ⟨c2, hc2, -⟩ := lit_cons h1
    exact ⟨c2, by rw [hc1, hc2]⟩

theorem pass3At_starts {l : List Char} {pr : List Char × List Char}
    (h : pass3At l = some pr) : ∃ t, l = '<' :: '!' :: t := by
  simp only [pass3At] at h
  cases hl : lit (str "<!-- ") l with
  | none => rw [hl] at h; cases h
  | some t0 =>
    obtain ⟨c1, hc1, h1⟩ := lit_cons hl
    obtain ⟨c2, hc2, -⟩ := lit_cons h1
    exact ⟨c2, by rw [hc1, hc2]⟩

theorem toMatcher_none {p : List Char → Option (List Char × List Char)}
    {l : List Char} (h : p l = none) : toMatcher p l = none := by
  simp [toMatcher, h]

theorem toMatcher_some {p : List Char → Option (List Char × List Char)}
    {l : List Char} {rep : List Char} {n : Nat}
    (h : toMatcher p l = some (rep, n)) : ∃ w, p l = some (rep, w) := by
  simp only [toMatcher] at h
  cases hp : p l with
  | none => rw [hp] at h; cases h
  | some pr =>
    obtain ⟨r0, w0⟩ := pr
    rw [hp] at h
    simp only [Option.some.injEq, Prod.mk.injEq] at h
    exact ⟨w0, by rw [h.1]⟩

/-- On text with no `<!`, the comment-pattern matchers never fire. -/
theorem pass1At_none {l : List Char} (h : hasLtBang l = false) : pass1At l = none := by
  cases hp : pass1At l with
  | none => rfl
  | some pr =>
    obtain ⟨t, rfl⟩ := pass1At_starts hp
    simp [hasLtBang] at h

theorem pass2At_none {l : List Char} (h : hasLtBang l = false) : pass2At l = none := by
  cases hp : pass2At l with
  | none => rfl
  | some pr =>
    obtain ⟨t, rfl⟩ := pass2At_starts hp
    simp [hasLtBang] at h

theorem pass3At_none {l : List Char} (h : hasLtBang l = false) : pass3At l = none := by
  cases hp : pass3At l with
  | none => rfl
  | some pr =>
    obtain ⟨t, rfl⟩ := pass3At_starts hp
    simp [hasLtBang] at h

theorem replacePass1_id {l : List Char} (h : hasLtBang l = false) :
    replacePass pass1At l = l :=
  replaceScan_id l (fun i => toMatcher_none (pass1At_none (hasLtBang_drop h i)))

theorem replacePass2_id {l : List Char} (h : hasLtBang l = false) :
    replacePass pass2At l = l :=
  replaceScan_id l (fun i => toMatcher_none (pass2At_none (hasLtBang_drop h i)))

theorem replacePass3_id {l : List Char} (h : hasLtBang l = false) :
    replacePass pass3At l = l :=
  replaceScan_id l (fun i => toMatcher_none (pass3At_none (hasLtBang_drop h i)))

theorem pass4At_some {l : List Char} {pr : List Char × List Char}
    (h : pass4At l = some pr) :
    ∃ t, l = '\n' :: '\n' :: '\n' :: t ∧
      pr = (str "\n\n", t.dropWhile (fun x => x = '\n')) := by
  match l with
  | [] => simp [pass4At] at h
  | [a] => simp [pass4At] at h
  | [a, b] => simp [pass4At] at h
  | a :: b :: c :: t =>
    simp only [pass4At] at h
    split_ifs at h with hcond
    simp only [Bool.and_eq_true, decide_eq_true_eq] at hcond
    obtain ⟨⟨rfl, rfl⟩, rfl⟩ := hcond
    simp only [Option.some.injEq] at h
    exact ⟨t, rfl, h.symm⟩

theorem pass4At_none_of_no3nl {l : List Char} (h : no3nl l = true) :
    pass4At l = none := by
  cases hp : pass4At l with
  | none => rfl
  | some pr =>
    obtain ⟨t, rfl, -⟩ := pass4At_some hp
    simp [no3nl] at h

theorem no3nl_tail {a : Char} {t : List Char} (h : no3nl (a :: t) = true) :
    no3nl t = true := by
  match t with
  | [] => rfl
  | [_] => rfl
  | b :: c :: t' =>
    simp only [no3nl, Bool.and_eq_true] at h
    exact h.2

theorem no3nl_drop {l : List Char} (h : no3nl l = true) (i : Nat) :
    no3nl (l.drop i) = true := by
  induction l generalizing i with
  | nil => simp [h]
  | cons a t ih =>
    cases i with
    | zero => exact h
    | succ i' => exact ih (no3nl_tail h) i'

theorem no3nl_cons (a : Char) (w : List Char) :
    no3nl (a :: w) = (!(a = '\n' && nl2 w) && no3nl w) := by
  match w with
  | [] => simp [no3nl, nl2]
  | [b] => simp [no3nl, nl2]
  | b :: c :: t => simp [no3nl, nl2, Bool.and_assoc]

theorem nl2_append {a b : List Char} (h : nl2 a = true) : nl2 (a ++ b) = true := by
  match a with
  | [] => simp [nl2] at h
  | [x] => simp [nl2] at h
  | x :: y :: t => simpa [nl2] using h

theorem no3nl_of_append {a b : List Char} (h : no3nl (a ++ b) = true) :
    no3nl a = true := by
  induction a with
  | nil => rfl
  | cons x a' ih =>
    rw [no3nl_cons]
    rw [show (x :: a') ++ b = x :: (a' ++ b) from rfl, no3nl_cons] at h
    simp only [Bool.and_eq_true] at h ⊢
    refine ⟨?_, ih h.2⟩
    rcases h with ⟨h1, -⟩
    by_cases hx : x = '\n'
    · subst hx
      have h2 : nl2 (a' ++ b) = false := by
        by_contra hc
        simp only [Bool.not_eq_false] at hc
        simp [hc] at h1
      have h3 : nl2 a' = false := by
        by_contra hc
        simp only [Bool.not_eq_false] at hc
        rw [nl2_append hc] at h2
        cases h2
      simp [h3]
    · simp [hx]

theorem nl2_head {l : List Char} (h : nl2 l = true) : headIs '\n' l = true := by
  match l with
  | [] => simp [nl2] at h
  | [x] => simp [nl2] at h
  | x :: y :: t =>
    simp only [nl2, Bool.and_eq_true] at h
    simp [headIs, h.1]

theorem headIs_nl_replaceScan_pass4 {l : List Char}
    (h : headIs '\n' (replaceScan (toMatcher pass4At) l) = true) :
    headIs '\n' l = true := by
  cases l with
  | nil => simp [replaceScan_nil, headIs] at h
  | cons c rest =>
    rw [replaceScan_cons] at h
    cases hm : toMatcher pass4At (c :: rest) with
    | some pr =>
      obtain ⟨rep, n⟩ := pr
      obtain ⟨w, hw⟩ := toMatcher_some hm
      obtain ⟨t, ht, -⟩ := pass4At_some hw
      injection ht with h1 h2
      simp [headIs, h1]
    | none =>
      rw [hm] at h
      simpa [headIs] using h

theorem headIs_replaceScan_pass4 {x : Char} (hx : ¬(x = '\n')) {l : List Char}
    (h : headIs x (replaceScan (toMatcher pass4At) l) = true) :
    headIs x l = true := by
  cases l with
  | nil => simp [replaceScan_nil, headIs] at h
  | cons c rest =>
    rw [replaceScan_cons] at h
    cases hm : toMatcher pass4At (c :: rest) with
    | some pr =>
      obtain ⟨rep, n⟩ := pr
      obtain ⟨w, hw⟩ := toMatcher_some hm
      obtain ⟨t, ht, hpr⟩ := pass4At_some hw
      rw [hm] at h
      simp only [Prod.mk.injEq] at hpr
      rw [hpr.1] at h
      simp only [str] at h
      simp only [headIs] at h
      exact absurd (Eq.symm (by simpa using h)) hx
    | none =>
      rw [hm] at h
      simpa [headIs] using h

theorem toMatcher_none_rev {p : List Char → Option (List Char × List Char)}
    {l : List Char} (h : toMatcher p l = none) : p l = none := by
  cases hp : p l with
  | none => rfl
  | some pr =>
    obtain ⟨r0, w0⟩ := pr
    simp [toMatcher, hp] at h

/-- Unfolding of the scan at a successful match, phrased with the rest of
the text after the match. -/
theorem replaceScan_cons_some {p : List Char → Option (List Char × List Char)}
    {c : Char} {rest rep w a : List Char}
    (hm : p (c :: rest) = some (rep, w)) (ha : a ++ w = rest) :
    replaceScan (toMatcher p) (c :: rest) =
      rep ++ replaceScan (toMatcher p) w := by
  rw [replaceScan_cons]
  have htm : toMatcher p (c :: rest) = some (rep, (c :: rest).length - w.length - 1) := by
    simp [toMatcher, hm]
  rw [htm]
  simp only []
  congr 1
  have hlen : (c :: rest).length - w.length - 1 = a.length := by
    rw [← ha]
    simp only [List.length_cons, List.length_append]
    omega
  rw [hlen, ← ha, List.drop_left]

theorem dropWhile_decomp (p : Char → Bool) (l : List Char) :
    ∃ a, a ++ l.dropWhile p = l := by
  induction l with
  | nil => exact ⟨[], rfl⟩
  | cons c t ih =>
    by_cases hp : p c
    · obtain ⟨a, hael⟩ := ih
      exact ⟨c :: a, by simp [List.dropWhile_cons, hp, hael]⟩
    · exact ⟨[], by simp [List.dropWhile_cons, hp]⟩

theorem dropWhile_head_false (p : Char → Bool) (l : List Char) {c : Char}
    {t : List Char} (h : l.dropWhile p = c :: t) : p c = false := by
  induction l with
  | nil => simp [List.dropWhile] at h
  | cons a t' ih =>
    by_cases hp : p a
    · rw [List.dropWhile_cons, if_pos hp] at h
      exact ih h
    · rw [List.dropWhile_cons, if_neg hp] at h
      injection h with h1 h2
      rw [← h1]
      simpa using hp

/-- The collapse pass cannot introduce a `<!` sequence: its replacements are
pure newlines and everything else is copied. -/
theorem hasLtBang_replaceScan_pass4 :
    ∀ (n : Nat) (l : List Char), l.length ≤ n → hasLtBang l = false →
      hasLtBang (replaceScan (toMatcher pass4At) l) = false := by
  intro n
  induction n with
  | zero =>
    intro l hl _
    have hnil : l = [] := List.eq_nil_of_length_eq_zero (Nat.le_zero.mp hl)
    subst hnil
    rw [replaceScan_nil]
    rfl
  | succ n ih =>
    intro l hl h
    cases l with
    | nil => rw [replaceScan_nil]; rfl
    | cons c rest =>
      cases hm : toMatcher pass4At (c :: rest) with
      | some pr =>
        obtain ⟨rep, k⟩ := pr
        obtain ⟨w, hw⟩ := toMatcher_some hm
        obtain ⟨t, hct, hpr⟩ := pass4At_some hw
        simp only [Prod.mk.injEq] at hpr
        obtain ⟨hrep, hwt⟩ := hpr
        injection hct with hc hrest
        obtain ⟨a, hA⟩ := dropWhile_decomp (fun x => x = '\n') t
        have hsplit : ('\n' :: '\n' :: a) ++ t.dropWhile (fun x => x = '\n') = rest := by
          rw [hrest]
          simp [hA]
        rw [hwt] at hw
        rw [replaceScan_cons_some hw hsplit, hrep]
        have hwlen : (t.dropWhile (fun x => x = '\n')).length ≤ n := by
          have h1 : a.length + (t.dropWhile (fun x => x = '\n')).length = t.length := by
            have h0 := congrArg List.length hA
            simpa [List.length_append] using h0
          have h2 : rest.length + 1 ≤ n + 1 := by simpa using hl
          rw [hrest] at h2
          simp only [List.length_cons] at h2
          omega
        have hwlt : hasLtBang (t.dropWhile (fun x => x = '\n')) = false := by
          have hdrop : rest.drop (('\n' :: '\n' :: a) : List Char).length =
              t.dropWhile (fun x => x = '\n') := by
            rw [← hsplit, List.drop_left]
          rw [← hdrop]
          exact hasLtBang_drop (hasLtBang_tail h) _
        have hz := ih (t.dropWhile (fun x => x = '\n')) hwlen hwlt
        show hasLtBang ('\n' :: '\n' ::
          replaceScan (toMatcher pass4At) (t.dropWhile (fun x => x = '\n'))) = false
        exact hasLtBang_cons_of (by decide) (hasLtBang_cons_of (by decide) hz)
      | none =>
        rw [replaceScan_cons, hm]
        simp only []
        have hZ : hasLtBang (replaceScan (toMatcher pass4At) rest) = false :=
          ih rest (by simpa using hl) (hasLtBang_tail h)
        by_cases hc : c = '<'
        · subst hc
          cases hhz : headIs '!' (replaceScan (toMatcher pass4At) rest) with
          | true =>
            have hr := headIs_replaceScan_pass4 (by decide) hhz
            cases rest with
            | nil => simp [headIs] at hr
            | cons r0 rt =>
              simp only [headIs, decide_eq_true_eq] at hr
              rw [hr] at h
              simp [hasLtBang] at h
          | false =>
            cases hzz : replaceScan (toMatcher pass4At) rest with
            | nil => rfl
            | cons z Z' =>
              rw [hzz] at hhz hZ
              simp only [headIs, decide_eq_true_eq] at hhz
              simp only [hasLtBang, Bool.or_eq_false_iff]
              constructor
              · simp only [Bool.and_eq_false_iff]
                right
                simpa using hhz
              · exact hZ
        · exact hasLtBang_cons_of hc hZ

theorem nl2_cons_nl (Z : List Char) : nl2 ('\n' :: Z) = headIs '\n' Z := by
  cases Z <;> simp [nl2, headIs]

/-- If the collapse pass's output opens with two newlines, so did its
input. -/
theorem nl2_replaceScan_pass4 {l : List Char}
    (h : nl2 (replaceScan (toMatcher pass4At) l) = true) : nl2 l = true := by
  cases l with
  | nil => rw [replaceScan_nil] at h; simp [nl2] at h
  | cons r0 rt =>
    cases hm : toMatcher pass4At (r0 :: rt) with
    | some pr =>
      obtain ⟨rep, k⟩ := pr
      obtain ⟨w, hw⟩ := toMatcher_some hm
      obtain ⟨t, hct, -⟩ := pass4At_some hw
      rw [hct]
      simp [nl2]
    | none =>
      rw [replaceScan_cons, hm] at h
      simp only [] at h
      cases hzz : replaceScan (toMatcher pass4At) rt with
      | nil => rw [hzz] at h; simp [nl2] at h
      | cons z Z' =>
        rw [hzz] at h
        simp only [nl2, Bool.and_eq_true, decide_eq_true_eq] at h
        obtain ⟨h0, h1⟩ := h
        have hz : headIs '\n' (replaceScan (toMatcher pass4At) rt) = true := by
          rw [hzz]
          simp [headIs, h1]
        have hr := headIs_nl_replaceScan_pass4 hz
        cases rt with
        | nil => simp [headIs] at hr
        | cons y yt =>
          simp only [headIs, decide_eq_true_eq] at hr
          simp [nl2, h0, hr]

/-- The collapse pass's output never contains three consecutive newlines. -/
theorem no3nl_replaceScan_pass4 :
    ∀ (n : Nat) (l : List Char), l.length ≤ n →
      no3nl (replaceScan (toMatcher pass4At) l) = true := by
  intro n
  induction n with
  | zero =>
    intro l hl
    have hnil : l = [] := List.eq_nil_of_length_eq_zero (Nat.le_zero.mp hl)
    subst hnil
    rw [replaceScan_nil]
    rfl
  | succ n ih =>
    intro l hl
    cases l with
    | nil => rw [replaceScan_nil]; rfl
    | cons c rest =>
      cases hm : toMatcher pass4At (c :: rest) with
      | some pr =>
        obtain ⟨rep, k⟩ := pr
        obtain ⟨w, hw⟩ := toMatcher_some hm
        obtain ⟨t, hct, hpr⟩ := pass4At_some hw
        simp only [Prod.mk.injEq] at hpr
        obtain ⟨hrep, hwt⟩ := hpr
        injection hct with hc hrest
        obtain ⟨a, hA⟩ := dropWhile_decomp (fun x => x = '\n') t
        have hsplit : ('\n' :: '\n' :: a) ++ t.dropWhile (fun x => x = '\n') = rest := by
          rw [hrest]
          simp [hA]
        rw [hwt] at hw
        rw [replaceScan_cons_some hw hsplit, hrep]
        have hwlen : (t.dropWhile (fun x => x = '\n')).length ≤ n := by
          have h1 : a.length + (t.dropWhile (fun x => x = '\n')).length = t.length := by
            have h0 := congrArg List.length hA
            simpa [List.length_append] using h0
          have h2 : rest.length + 1 ≤ n + 1 := by simpa using hl
          rw [hrest] at h2
          simp only [List.length_cons] at h2
          omega
        have hz := ih (t.dropWhile (fun x => x = '\n')) hwlen
        have hhead : headIs '\n'
            (replaceScan (toMatcher pass4At) (t.dropWhile (fun x => x = '\n'))) = false := by
          by_contra hcon
          simp only [Bool.not_eq_false] at hcon
          have h3 := headIs_nl_replaceScan_pass4 hcon
          cases hdw : t.dropWhile (fun x => x = '\n') with
          | nil => rw [hdw] at h3; simp [headIs] at h3
          | cons d dt =>
            rw [hdw] at h3
            simp only [headIs, decide_eq_true_eq] at h3
            have := dropWhile_head_false (fun x => x = '\n') t hdw
            simp [h3] at this
        show no3nl ('\n' :: '\n' ::
          replaceScan (toMatcher pass4At) (t.dropWhile (fun x => x = '\n'))) = true
        rw [no3nl_cons, no3nl_cons, nl2_cons_nl]
        have hnl2 : nl2 (replaceScan (toMatcher pass4At)
            (t.dropWhile (fun x => x = '\n'))) = false := by
          by_contra hcon
          simp only [Bool.not_eq_false] at hcon
          rw [nl2_head hcon] at hhead
          cases hhead
        simp [hhead, hnl2, hz]
      | none =>
        rw [replaceScan_cons, hm]
        simp only []
        rw [no3nl_cons]
        have hz := ih rest (by simpa using hl)
        have hp : (decide (c = '\n') &&
            nl2 (replaceScan (toMatcher pass4At) rest)) = false := by
          by_cases hc : c = '\n'
          · subst hc
            by_cases h2 : nl2 (replaceScan (toMatcher pass4At) rest) = true
            · have h3 := nl2_replaceScan_pass4 h2
              cases rest with
              | nil => simp [nl2] at h3
              | cons r0 rt =>
                cases rt with
                | nil => simp [nl2] at h3
                | cons r1 rt' =>
                  simp only [nl2, Bool.and_eq_true, decide_eq_true_eq] at h3
                  obtain ⟨rfl, rfl⟩ := h3
                  have : pass4At ('\n' :: '\n' :: '\n' :: rt') =
                      some (str "\n\n", rt'.dropWhile (fun x => x = '\n')) := by
                    simp [pass4At]
                  exact absurd (toMatcher_none_rev hm) (by simp [this])
            · simp only [Bool.not_eq_true] at h2
              simp [h2]
          · simp [hc]
        simp [hp, hz]

/-! Trim lemmas: the trim of line 945 removes a whitespace prefix and a
whitespace suffix, so it preserves both cleanliness invariants and is
idempotent. -/

theorem jsTrimEnd_decomp (l : List Char) : ∃ b, l = jsTrimEnd l ++ b := by
  induction l with
  | nil => exact ⟨[], rfl⟩
  | cons c t ih =>
    obtain ⟨b, hb⟩ := ih
    cases hr : jsTrimEnd t with
    | nil =>
      by_cases hw : jsWs c
      · exact ⟨c :: t, by simp [jsTrimEnd, hr, hw]⟩
      · exact ⟨t, by simp [jsTrimEnd, hr, hw]⟩
    | cons r0 rt =>
      rw [hr] at hb
      refine ⟨b, ?_⟩
      simp only [jsTrimEnd, hr]
      simp [hb]

theorem hasLtBang_jsTrimEnd {l : List Char} (h : hasLtBang l = false) :
    hasLtBang (jsTrimEnd l) = false := by
  obtain ⟨b, hb⟩ := jsTrimEnd_decomp l
  rw [hb] at h
  exact hasLtBang_of_append h

theorem no3nl_jsTrimEnd {l : List Char} (h : no3nl l = true) :
    no3nl (jsTrimEnd l) = true := by
  obtain ⟨b, hb⟩ := jsTrimEnd_decomp l
  rw [hb] at h
  exact no3nl_of_append h

theorem hasLtBang_dropWhile (p : Char → Bool) {l : List Char}
    (h : hasLtBang l = false) : hasLtBang (l.dropWhile p) = false := by
  obtain ⟨a, hal⟩ := dropWhile_decomp p l
  have hd : l.drop a.length = l.dropWhile p := by
    conv_lhs => rw [← hal]
    rw [List.drop_left]
  rw [← hd]
  exact hasLtBang_drop h _

theorem no3nl_dropWhile (p : Char → Bool) {l : List Char}
    (h : no3nl l = true) : no3nl (l.dropWhile p) = true := by
  obtain ⟨a, hal⟩ := dropWhile_decomp p l
  have hd : l.drop a.length = l.dropWhile p := by
    conv_lhs => rw [← hal]
    rw [List.drop_left]
  rw [← hd]
  exact no3nl_drop h _

theorem hasLtBang_jsTrim {l : List Char} (h : hasLtBang l = false) :
    hasLtBang (jsTrim l) = false :=
  hasLtBang_jsTrimEnd (hasLtBang_dropWhile _ h)

theorem no3nl_jsTrim {l : List Char} (h : no3nl l = true) :
    no3nl (jsTrim l) = true :=
  no3nl_jsTrimEnd (no3nl_dropWhile _ h)

theorem jsTrimEnd_head (c : Char) (t : List Char) :
    jsTrimEnd (c :: t) = [] ∨ ∃ r, jsTrimEnd (c :: t) = c :: r := by
  cases hr : jsTrimEnd t with
  | nil =>
    by_cases hw : jsWs c
    · left
      simp [jsTrimEnd, hr, hw]
    · right
      exact ⟨[], by simp [jsTrimEnd, hr, hw]⟩
  | cons r0 rt =>
    right
    exact ⟨r0 :: rt, by simp [jsTrimEnd, hr]⟩

theorem lastNotWs_jsTrimEnd (l : List Char) : lastNotWs (jsTrimEnd l) = true := by
  induction l with
  | nil => rfl
  | cons c t ih =>
    cases hr : jsTrimEnd t with
    | nil =>
      by_cases hw : jsWs c
      · simp [jsTrimEnd, hr, hw, lastNotWs]
      · simp [jsTrimEnd, hr, hw, lastNotWs]
    | cons r0 rt =>
      rw [hr] at ih
      simp only [jsTrimEnd, hr]
      simpa [lastNotWs] using ih

theorem jsTrimEnd_id {l : List Char} (h : lastNotWs l = true) :
    jsTrimEnd l = l := by
  induction l with
  | nil => rfl
  | cons c t ih =>
    cases t with
    | nil =>
      have hc : jsWs c = false := by simpa [lastNotWs] using h
      simp [jsTrimEnd, hc]
    | cons b t' =>
      have ht : lastNotWs (b :: t') = true := by simpa [lastNotWs] using h
      show (match jsTrimEnd (b :: t') with
        | [] => if jsWs c then [] else [c]
        | r => c :: r) = c :: b :: t'
      rw [ih ht]

theorem jsTrim_idem (l : List Char) : jsTrim (jsTrim l) = jsTrim l := by
  show jsTrimEnd ((jsTrimEnd (l.dropWhile jsWs)).dropWhile jsWs) =
    jsTrimEnd (l.dropWhile jsWs)
  have hdw : (jsTrimEnd (l.dropWhile jsWs)).dropWhile jsWs =
      jsTrimEnd (l.dropWhile jsWs) := by
    cases hld : l.dropWhile jsWs with
    | nil => simp [jsTrimEnd]
    | cons d u =>
      have hd : jsWs d = false := dropWhile_head_false jsWs l hld
      rcases jsTrimEnd_head d u with h0 | ⟨r, hr⟩
      · rw [h0]
        rfl
      · rw [hr]
        simp [List.dropWhile_cons, hd]
  rw [hdw]
  exact jsTrimEnd_id (lastNotWs_jsTrimEnd _)

theorem replacePass4_id {l : List Char} (h : no3nl l = true) :
    replacePass pass4At l = l :=
  replaceScan_id l (fun i => toMatcher_none (pass4At_none_of_no3nl (no3nl_drop h i)))

theorem convert_eq_of_clean {l : List Char} (h : hasLtBang l = false) :
    convertToWikiJsMarkdown l = jsTrim (replacePass pass4At l) := by
  show jsTrim (replacePass pass4At
    (replacePass pass3At (replacePass pass2At (replacePass pass1At l)))) = _
  rw [replacePass1_id h, replacePass2_id h, replacePass3_id h]

/-- C3 amended: the Destination Format Adapter is idempotent on every input
that contains no occurrence of the two-character sequence `<!` (in
particular on any text free of HTML comment openers).  On such inputs the
three comment passes are identities, the newline-collapse pass produces
text with no triple newline and cannot manufacture a `<!`, and the final
trim preserves both properties, so a second application changes nothing.
Unconditional idempotence fails on the code: removing an embedded comment
can splice surrounding text into a brand-new comment that only a second
run deletes (see the counterexample). -/
theorem c3_amended (x : List Char) (h : hasLtBang x = false) :
    convertToWikiJsMarkdown (convertToWikiJsMarkdown x) =
      convertToWikiJsMarkdown x := by
  have hx := convert_eq_of_clean h
  have hP4lt : hasLtBang (replacePass pass4At x) = false :=
    hasLtBang_replaceScan_pass4 x.length x (Nat.le_refl _) h
  have hP4no3 : no3nl (replacePass pass4At x) = true :=
    no3nl_replaceScan_pass4 x.length x (Nat.le_refl _)
  have hylt : hasLtBang (convertToWikiJsMarkdown x) = false := by
    rw [hx]
    exact hasLtBang_jsTrim hP4lt
  have hyno3 : no3nl (convertToWikiJsMarkdown x) = true := by
    rw [hx]
    exact no3nl_jsTrim hP4no3
  rw [convert_eq_of_clean hylt, replacePass4_id hyno3, hx, jsTrim_idem]

/-- Witness for `c3_amended` at a concrete comment-free input. -/
theorem c3_amended_witness :
    convertToWikiJsMarkdown (convertToWikiJsMarkdown (str "a\n\n\n\nb ")) =
      convertToWikiJsMarkdown (str "a\n\n\n\nb ") :=
  c3_amended (str "a\n\n\n\nb ") (by decide)

/-! ## The code/noformat macro pass (claims C4 and C5)

src/markdown-converter.ts lines 81-105: the global, case-insensitive
replace of
`<ac:structured-macro\s+ac:name="(code|noformat)"[^>]*>([\s\S]*?)<\/ac:structured-macro>`
by either a synthesized `<pre><code>` element (when a CDATA body is found)
or an explanatory comment. -/

/-- Case-insensitive literal matcher (for the `i`-flagged regexes); ASCII
case folding, which covers every letter appearing in the patterns. -/
def litCI : List Char → List Char → Option (List Char)
  | [], l => some l
  | _ :: _, [] => none
  | p :: ps, c :: cs => if toLowerAscii c = toLowerAscii p then litCI ps cs else none

/-- `\s+`: at least one whitespace character, then the maximal run.  The
character after every `\s+` in the source patterns is never whitespace, so
the greedy run needs no backtracking. -/
def ws1 (l : List Char) : Option (List Char) :=
  match l with
  | [] => none
  | c :: t => if jsWs c then some (t.dropWhile jsWs) else none

/-- `[^>]*>`: skip up to the first '>', which must exist; the greedy class
cannot cross the '>' and the literal must consume it. -/
def gtClose (l : List Char) : Option (List Char) :=
  match l.dropWhile (fun c => !(c = '>')) with
  | [] => none
  | c :: r => if c = '>' then some r else none

/-- The alternation `(code|noformat)`: the two branches differ in their
first letter, so at most one can match and the regex alternation is
deterministic.  The capture is the matched input text (original case). -/
def macroNameAlt (l : List Char) : Option (List Char × List Char) :=
  match litCI (str "code") l with
  | some r => some (l.take 4, r)
  | none =>
    match litCI (str "noformat") l with
    | some r => some (l.take 8, r)
    | none => none

/-- The lazy `([\s\S]*?)` of the macro pattern: shortest body whose end is
followed by the (case-insensitive) closing tag. -/
def lazyBody : List Char → Option (List Char × List Char)
  | [] => none
  | c :: t =>
    match litCI (str "</ac:structured-macro>") (c :: t) with
    | some r => some ([], r)
    | none =>
      match lazyBody t with
      | some (content, r) => some (c :: content, r)
      | none => none

/-- The language-parameter probe of line 87:
`content.match(/<ac:parameter\s+ac:name="language"[^>]*>(.*?)<\/ac:parameter>/i)`.
The un-`s`-flagged lazy dot cannot cross a line terminator. -/
def isLineTerm (c : Char) : Bool :=
  c = '\n' || c = '\r' || c.toNat = 0x2028 || c.toNat = 0x2029

def langBody : List Char → Option (List Char × List Char)
  | [] => none
  | c :: t =>
    match litCI (str "</ac:parameter>") (c :: t) with
    | some r => some ([], r)
    | none =>
      if isLineTerm c then none
      else
        match langBody t with
        | some (content, r) => some (c :: content, r)
        | none => none

def langAt (l : List Char) : Option (List Char) :=
  match litCI (str "<ac:parameter") l with
  | none => none
  | some t1 =>
    match ws1 t1 with
    | none => none
    | some t2 =>
      match litCI (str "ac:name=\"language\"") t2 with
      | none => none
      | some t3 =>
        match gtClose t3 with
        | none => none
        | some t4 =>
          match langBody t4 with
          | none => none
          | some (lang, _) => some lang

/-- First full match of the language-parameter pattern anywhere in the
content (`String.match` without the `g` flag). -/
def findLang : List Char → Option (List Char)
  | [] => none
  | c :: t =>
    match langAt (c :: t) with
    | some lang => some lang
    | none => findLang t

/-- The CDATA probe of line 91:
`content.match(/<ac:plain-text-body><!\[CDATA\[([\s\S]*?)\]\]><\/ac:plain-text-body>/i)`. -/
def cdataBody : List Char → Option (List Char × List Char)
  | [] => none
  | c :: t =>
    match litCI (str "]]></ac:plain-text-body>") (c :: t) with
    | some r => some ([], r)
    | none =>
      match cdataBody t with
      | some (content, r) => some (c :: content, r)
      | none => none

def cdataAt (l : List Char) : Option (List Char) :=
  match litCI (str "<ac:plain-text-body><![CDATA[") l with
  | none => none
  | some t =>
    match cdataBody t with
    | none => none
    | some (content, _) => some content

def findCdata : List Char → Option (List Char)
  | [] => none
  | c :: t =>
    match cdataAt (c :: t) with
    | some content => some content
    | none => findCdata t

/-- Line 92: `cdataMatch ? cdataMatch[1].trim() : ''`. -/
def extractedCode (content : List Char) : List Char :=
  match findCdata content with
  | some c => jsTrim c
  | none => []

/-- Line 88: `languageMatch ? languageMatch[1].trim() : ''`. -/
def extractedLang (content : List Char) : List Char :=
  match findLang content with
  | some lang => jsTrim lang
  | none => []

/-- The replacement callback of lines 83-104: a `<pre><code>` block when a
nonempty CDATA body was extracted, else the explanatory comment. -/
def codeMacroReplace (name content : List Char) : List Char :=
  if extractedCode content = [] then
    str "<!-- Confluence " ++ name ++ str " macro (content not extracted) -->\n"
  else
    str "<pre><code class=\"language-" ++ extractedLang content ++ str "\">" ++
      escapeHtml (extractedCode content) ++ str "</code></pre>"

/-- The full matcher for one occurrence of the code/noformat macro
pattern. -/
def codeMacroAt (l : List Char) : Option (List Char × List Char) :=
  match litCI (str "<ac:structured-macro") l with
  | none => none
  | some t1 =>
    match ws1 t1 with
    | none => none
    | some t2 =>
      match litCI (str "ac:name=\"") t2 with
      | none => none
      | some t3 =>
        match macroNameAlt t3 with
        | none => none
        | some (name, t4) =>
          match litCI (str "\"") t4 with
          | none => none
          | some t5 =>
            match gtClose t5 with
            | none => none
            | some t6 =>
              match lazyBody t6 with
              | none => none
              | some (content, r) => some (codeMacroReplace name content, r)

/-- src/markdown-converter.ts lines 81-105: the code/noformat pass of
`preprocessConfluenceHtml`. -/
def codeNoformatPass (l : List Char) : List Char := replacePass codeMacroAt l

/-- A code/noformat structured-macro span written out of its literal
pieces. -/
def codeSpan (name body : List Char) : List Char :=
  str "<ac:structured-macro ac:name=\"" ++ name ++ str "\">" ++ body ++
    str "</ac:structured-macro>"

/-! ## The codeBlock rewrite rule (claim C5)

src/markdown-converter.ts lines 480-489: the custom rule matching
`<pre><code class="language-*">` and emitting a fenced block. -/

/-- `className.replace('language-', '')` (line 486): a string pattern, so
only the first occurrence is replaced. -/
def replaceFirst (pat rep : List Char) : List Char → List Char
  | [] => []
  | c :: t =>
    match lit pat (c :: t) with
    | some r => rep ++ r
    | none => c :: replaceFirst pat rep t

/-- The replacement of lines 484-488, for a given fence, class attribute
and delivered content. -/
def codeBlockRule (fence className content : List Char) : List Char :=
  str "\n" ++ fence ++ replaceFirst (str "language-") [] className ++ str "\n" ++
    content ++ str "\n" ++ fence ++ str "\n"

/-- Matcher undoing the five entities produced by `escapeHtml` (the DOM
parser's entity decoding, applied by the engine when reading the code
element's text content). -/
def entityAt (l : List Char) : Option (List Char × List Char) :=
  match lit (str "&amp;") l with
  | some r => some (str "&", r)
  | none =>
    match lit (str "&lt;") l with
    | some r => some (str "<", r)
    | none =>
      match lit (str "&gt;") l with
      | some r => some (str ">", r)
      | none =>
        match lit (str "&quot;") l with
        | some r => some (str "\"", r)
        | none =>
          match lit (str "&#039;") l with
          | some r => some (str "\x27", r)
          | none => none

def unescapeEntities (l : List Char) : List Char := replacePass entityAt l

def splitAtCodeClose : List Char → Option (List Char × List Char)
  | [] => none
  | c :: t =>
    match lit (str "</code></pre>") (c :: t) with
    | some r => some ([], r)
    | none =>
      match splitAtCodeClose t with
      | some (a, r) => some (c :: a, r)
      | none => none

/-- Modelled from the spec (§4.2, Rewrite Engine + code block rule): the
external engine parses the synthesized `<pre><code class="...">` element,
reads its class attribute, decodes the entity-escaped text content, and
hands both to the registered codeBlock rule (lines 480-489).  Only the
engine's parsing/delivery step is external; the rule body is the source's. -/
def turndownCodeBlock (fence html : List Char) : Option (List Char) :=
  match lit (str "<pre><code class=\"") html with
  | none => none
  | some t =>
    match lit (str "\">") (t.drop (t.takeWhile (fun c => !(c = '"'))).length) with
    | none => none
    | some rest =>
      match splitAtCodeClose rest with
      | none => none
      | some (bodyText, _) =>
        some (codeBlockRule fence (t.takeWhile (fun c => !(c = '"')))
          (unescapeEntities bodyText))

/-- The `code` macro of claim C5: language parameter `python`, CDATA body
`print("hi")`. -/
def c5Input : List Char :=
  str "<ac:structured-macro ac:name=\"code\" ac:schema-version=\"1\"><ac:parameter ac:name=\"language\">python</ac:parameter><ac:plain-text-body><![CDATA[print(\"hi\")]]></ac:plain-text-body></ac:structured-macro>"

/-- C5: the code macro with language `python` and CDATA body `print("hi")`
preprocesses to `<pre><code class="language-python">` with the body
HTML-escaped, and the codeBlock rule then emits a fenced block whose
opening fence is immediately followed by `python` with no space, with the
literal body on the next line and the closing fence on its own line. -/
theorem c5_code_macro_roundtrip :
    codeNoformatPass c5Input =
      str "<pre><code class=\"language-python\">print(&quot;hi&quot;)</code></pre>" ∧
      turndownCodeBlock (str "```") (codeNoformatPass c5Input) =
        some (str "\n```python\nprint(\"hi\")\n```\n") ∧
      str "\n```python\nprint(\"hi\")\n```\n" =
        str "\n" ++ str "```" ++ str "python" ++ str "\n" ++
          str "print(\"hi\")" ++ str "\n" ++ str "```" ++ str "\n" := by
  refine ⟨by decide, ?_, by decide⟩
  rw [show codeNoformatPass c5Input =
    str "<pre><code class=\"language-python\">print(&quot;hi&quot;)</code></pre>"
    from by decide]
  decide

/-! ## Claim C4: fallback comment for code macros without a CDATA body -/

theorem char_le_toNat {a b : Char} (h : a ≤ b) : a.toNat ≤ b.toNat := by
  rw [Char.le_def, UInt32.le_def] at h
  simpa [Char.toNat, UInt32.toNat, BitVec.le_def] using h

theorem char_toNat_ofNat {n : Nat} (h : n < 0xd800) : (Char.ofNat n).toNat = n := by
  simp only [Char.ofNat, Nat.isValidChar]
  rw [dif_pos (Or.inl h)]
  simp [Char.ofNatAux, Char.toNat, UInt32.ofNat', UInt32.toNat, BitVec.ofNatLt]

/-- ASCII case folding can only identify letters; for any non-lowercase
target the fold is injective at that point. -/
theorem toLowerAscii_eq_of_not_letter {c x : Char}
    (hx : x.toNat < 97 ∨ 122 < x.toNat) (h : toLowerAscii c = x) : c = x := by
  by_cases hr : ('A' ≤ c && c ≤ 'Z') = true
  · exfalso
    simp only [toLowerAscii, hr, if_true] at h
    simp only [Bool.and_eq_true, decide_eq_true_eq] at hr
    have hA := char_le_toNat hr.1
    have hZ := char_le_toNat hr.2
    have eA : ('A' : Char).toNat = 65 := rfl
    have eZ : ('Z' : Char).toNat = 90 := rfl
    rw [eA] at hA
    rw [eZ] at hZ
    have hv : (Char.ofNat (c.toNat + 32)).toNat = c.toNat + 32 :=
      char_toNat_ofNat (by omega)
    rw [h] at hv
    omega
  · simpa [toLowerAscii, hr] using h

theorem litCI_cons_some {p : Char} {ps : List Char} {l r : List Char}
    (h : litCI (p :: ps) l = some r) :
    ∃ c cs, l = c :: cs ∧ toLowerAscii c = toLowerAscii p ∧ litCI ps cs = some r := by
  cases l with
  | nil => simp [litCI] at h
  | cons c cs =>
    simp only [litCI] at h
    split_ifs at h with hc
    · exact ⟨c, cs, rfl, hc, h⟩

theorem litCI_refl (p : List Char) (r : List Char) : litCI p (p ++ r) = some r := by
  induction p with
  | nil => rfl
  | cons c ps ih => simp [litCI, ih]

/-- A code/noformat macro match can only start at a '<'. -/
theorem codeMacroAt_none_head {c : Char} {u : List Char} (hc : ¬(c = '<')) :
    codeMacroAt (c :: u) = none := by
  cases hm : codeMacroAt (c :: u) with
  | none => rfl
  | some pr =>
    exfalso
    simp only [codeMacroAt] at hm
    cases h1 : litCI (str "<ac:structured-macro") (c :: u) with
    | none => rw [h1] at hm; simp at hm
    | some t1 =>
      have h2 : litCI ('<' :: str "ac:structured-macro") (c :: u) = some t1 := h1
      obtain ⟨c', cs', hcc, hlow, -⟩ := litCI_cons_some h2
      injection hcc with hc1 hc2
      rw [← hc1] at hlow
      have : c = '<' := toLowerAscii_eq_of_not_letter (by decide)
        (by rw [hlow]; decide)
      exact hc this

/-- Scanning text whose characters are all different from '<' copies it
unchanged (no macro match can start there). -/
theorem codeScan_through_pre {pre : List Char} (hpre : ∀ c ∈ pre, ¬(c = '<'))
    (z : List Char) :
    replaceScan (toMatcher codeMacroAt) (pre ++ z) =
      pre ++ replaceScan (toMatcher codeMacroAt) z := by
  induction pre with
  | nil => simp
  | cons c pre' ih =>
    have hc : ¬(c = '<') := hpre c (by simp)
    show replaceScan (toMatcher codeMacroAt) (c :: (pre' ++ z)) = _
    rw [replaceScan_cons, toMatcher_none (codeMacroAt_none_head hc)]
    show c :: replaceScan (toMatcher codeMacroAt) (pre' ++ z) =
      (c :: pre') ++ replaceScan (toMatcher codeMacroAt) z
    rw [ih (fun x hx => hpre x (by simp [hx]))]
    rfl

/-- The lazy body scan stops exactly at the first closing tag when the body
itself offers no earlier (possibly boundary-crossing) match of it. -/
theorem lazyBody_exact {body post : List Char}
    (h : ∀ i, i < body.length →
      litCI (str "</ac:structured-macro>")
        (body.drop i ++ (str "</ac:structured-macro>" ++ post)) = none) :
    lazyBody (body ++ (str "</ac:structured-macro>" ++ post)) = some (body, post) := by
  induction body with
  | nil =>
    have e1 : str "</ac:structured-macro>" = '<' :: str "/ac:structured-macro>" := rfl
    show lazyBody ([] ++ (str "</ac:structured-macro>" ++ post)) = some ([], post)
    rw [List.nil_append, e1, List.cons_append]
    simp only [lazyBody]
    rw [← List.cons_append, ← e1, litCI_refl]
  | cons c b' ih =>
    have h0 := h 0 (by simp)
    simp only [List.drop_zero] at h0
    show lazyBody ((c :: b') ++ (str "</ac:structured-macro>" ++ post)) =
      some (c :: b', post)
    rw [List.cons_append]
    simp only [lazyBody]
    rw [show (c :: (b' ++ (str "</ac:structured-macro>" ++ post))) =
      ((c :: b') ++ (str "</ac:structured-macro>" ++ post)) from rfl, h0]
    rw [ih (fun i hi => by
      have hs := h (i + 1) (by simp only [List.length_cons]; omega)
      simpa using hs)]

theorem macroNameAlt_code (rest : List Char) :
    macroNameAlt (str "code" ++ rest) = some (str "code", rest) := by
  simp only [macroNameAlt, litCI_refl]
  have ht : (str "code" ++ rest).take 4 = str "code" := by
    rw [show (4 : Nat) = (str "code").length from rfl]
    exact List.take_left _ _
  rw [ht]

theorem macroNameAlt_noformat (rest : List Char) :
    macroNameAlt (str "noformat" ++ rest) = some (str "noformat", rest) := by
  have hfail : litCI (str "code") (str "noformat" ++ rest) = none := by
    rw [show str "noformat" ++ rest = 'n' :: (str "oformat" ++ rest) from rfl]
    rw [show (str "code" : List Char) = 'c' :: str "ode" from rfl]
    simp only [litCI]
    rw [if_neg (by decide : ¬(toLowerAscii 'n' = toLowerAscii 'c'))]
  simp only [macroNameAlt, hfail, litCI_refl]
  have ht : (str "noformat" ++ rest).take 8 = str "noformat" := by
    rw [show (8 : Nat) = (str "noformat").length from rfl]
    exact List.take_left _ _
  rw [ht]

theorem codeSpanPost (name body post : List Char) :
    codeSpan name body ++ post =
      str "<ac:structured-macro" ++ (' ' :: (str "ac:name=\"" ++
        (name ++ ('"' :: ('>' :: (body ++ (str "</ac:structured-macro>" ++ post))))))) := by
  simp only [codeSpan, List.append_assoc]
  rw [show str "<ac:structured-macro ac:name=\"" =
    str "<ac:structured-macro" ++ (' ' :: str "ac:name=\"") from rfl]
  rw [show (str "\">" : List Char) = '"' :: ['>'] from rfl]
  simp [List.append_assoc]

theorem ws1_step (X : List Char) :
    ws1 (' ' :: (str "ac:name=\"" ++ X)) = some (str "ac:name=\"" ++ X) := by
  show (if jsWs ' ' = true then
    some ((str "ac:name=\"" ++ X).dropWhile jsWs) else none) = _
  rw [if_pos (by decide)]
  rw [show str "ac:name=\"" ++ X = 'a' :: (str "c:name=\"" ++ X) from rfl]
  rw [List.dropWhile_cons, if_neg (by decide)]

theorem gtClose_step (Z : List Char) : gtClose ('>' :: Z) = some Z := by
  simp [gtClose, List.dropWhile_cons]

theorem quote_step (Z : List Char) :
    litCI (str "\"") ('"' :: Z) = some Z := by
  rw [show (str "\"" : List Char) = ['"'] from rfl]
  simp [litCI]

/-- The macro matcher at the start of a code/noformat span consumes exactly
the span and produces the replacement callback's output. -/
theorem codeMacroAt_span {name body post : List Char}
    (hna : macroNameAlt (name ++ ('"' :: ('>' ::
        (body ++ (str "</ac:structured-macro>" ++ post))))) =
      some (name, '"' :: ('>' :: (body ++ (str "</ac:structured-macro>" ++ post)))))
    (hclose : ∀ i, i < body.length →
      litCI (str "</ac:structured-macro>")
        (body.drop i ++ (str "</ac:structured-macro>" ++ post)) = none) :
    codeMacroAt (codeSpan name body ++ post) =
      some (codeMacroReplace name body, post) := by
  rw [codeSpanPost]
  simp only [codeMacroAt, litCI_refl, ws1_step, quote_step, gtClose_step, hna,
    lazyBody_exact hclose]

/-- C4: a code or noformat structured-macro span, placed after any text
free of '<' (so that the leftmost scan reaches it intact), whose body
yields no CDATA content, is replaced by exactly one HTML comment naming
the macro; the remainder of the document is processed normally, and the
pass is a total function (it cannot raise).  The body hypothesis says the
lazy scan finds no closing tag before the span's own closer; the emptiness
hypothesis is the source's `codeContent` falsiness test. -/
theorem c4_code_macro_fallback (pre body post : List Char) (isCode : Bool)
    (hpre : ∀ c ∈ pre, ¬(c = '<'))
    (hclose : ∀ i, i < body.length →
      litCI (str "</ac:structured-macro>")
        (body.drop i ++ (str "</ac:structured-macro>" ++ post)) = none)
    (hempty : extractedCode body = []) :
    codeNoformatPass
        (pre ++ (codeSpan (if isCode then str "code" else str "noformat") body ++ post)) =
      pre ++ ((str "<!-- Confluence " ++ ((if isCode then str "code" else str "noformat") ++
        str " macro (content not extracted) -->\n")) ++ codeNoformatPass post) := by
  have hna : macroNameAlt ((if isCode then str "code" else str "noformat") ++
      ('"' :: ('>' :: (body ++ (str "</ac:structured-macro>" ++ post))))) =
      some ((if isCode then str "code" else str "noformat"),
        '"' :: ('>' :: (body ++ (str "</ac:structured-macro>" ++ post)))) := by
    cases isCode with
    | true => simpa using macroNameAlt_code _
    | false => simpa using macroNameAlt_noformat _
  have hat := codeMacroAt_span hna hclose
  show replaceScan (toMatcher codeMacroAt)
    (pre ++ (codeSpan (if isCode then str "code" else str "noformat") body ++ post)) = _
  rw [codeScan_through_pre hpre]
  congr 1
  have hshape : codeSpan (if isCode then str "code" else str "noformat") body ++ post =
      '<' :: (str "ac:structured-macro" ++ (' ' :: (str "ac:name=\"" ++
        ((if isCode then str "code" else str "noformat") ++ ('"' :: ('>' ::
          (body ++ (str "</ac:structured-macro>" ++ post)))))))) := by
    rw [codeSpanPost]
    rw [show str "<ac:structured-macro" = '<' :: str "ac:structured-macro" from rfl]
    rw [List.cons_append]
  rw [hshape]
  rw [replaceScan_cons_some (by rw [← hshape]; exact hat)
    (show (str "ac:structured-macro" ++ (' ' :: (str "ac:name=\"" ++
      ((if isCode then str "code" else str "noformat") ++ ('"' :: ('>' ::
        (body ++ str "</ac:structured-macro>"))))))) ++ post =
      str "ac:structured-macro" ++ (' ' :: (str "ac:name=\"" ++
        ((if isCode then str "code" else str "noformat") ++ ('"' :: ('>' ::
          (body ++ (str "</ac:structured-macro>" ++ post))))))) from by
      simp [List.append_assoc])]
  have hrep : codeMacroReplace (if isCode then str "code" else str "noformat") body =
      str "<!-- Confluence " ++ ((if isCode then str "code" else str "noformat") ++
        str " macro (content not extracted) -->\n") := by
    simp [codeMacroReplace, hempty]
  rw [hrep]
  rfl

/-- Witness for `c4_code_macro_fallback`: a code macro whose body holds a
language parameter but no CDATA body, embedded in surrounding text. -/
theorem c4_code_macro_fallback_witness :
    codeNoformatPass
        (str "x " ++ (codeSpan (if true then str "code" else str "noformat")
          (str "<ac:parameter ac:name=\"language\">py</ac:parameter>") ++ str " tail")) =
      str "x " ++ ((str "<!-- Confluence " ++ ((if true then str "code" else str "noformat") ++
        str " macro (content not extracted) -->\n")) ++ codeNoformatPass (str " tail")) :=
  c4_code_macro_fallback (str "x ")
    (str "<ac:parameter ac:name=\"language\">py</ac:parameter>") (str " tail") true
    (by decide) (by decide) (by decide)

/-! ## Link-macro normalization (claim C6)

`processConfluenceLinks`, src/markdown-converter.ts lines 1210-1382: nine
successive global, case-insensitive regex replaces over the document. -/

/-- UTF-8 bytes of a character (for `encodeURIComponent`). -/
def utf8Bytes (c : Char) : List Nat :=
  let n := c.toNat
  if n < 0x80 then [n]
  else if n < 0x800 then [0xC0 + n / 0x40, 0x80 + n % 0x40]
  else if n < 0x10000 then
    [0xE0 + n / 0x1000, 0x80 + (n / 0x40) % 0x40, 0x80 + n % 0x40]
  else
    [0xF0 + n / 0x40000, 0x80 + (n / 0x1000) % 0x40,
      0x80 + (n / 0x40) % 0x40, 0x80 + n % 0x40]

def hexDigit (n : Nat) : Char :=
  if n < 10 then Char.ofNat (48 + n) else Char.ofNat (55 + n)

def pctByte (b : Nat) : List Char := ['%', hexDigit (b / 16), hexDigit (b % 16)]

/-- The characters `encodeURIComponent` leaves unescaped. -/
def uriUnreserved (c : Char) : Bool :=
  ('A' ≤ c && c ≤ 'Z') || ('a' ≤ c && c ≤ 'z') || ('0' ≤ c && c ≤ '9') ||
    c = '-' || c = '_' || c = '.' || c = '!' || c = '~' || c = '*' ||
    c = '\x27' || c = '(' || c = ')'

/-- JavaScript's `encodeURIComponent`: unreserved characters pass through,
everything else is percent-encoded byte-wise in UTF-8 with uppercase hex. -/
def encodeURIComponent (l : List Char) : List Char :=
  (l.map (fun c =>
    if uriUnreserved c then [c] else ((utf8Bytes c).map pctByte).flatten)).flatten

/-- `\s*`. -/
def ws0 (l : List Char) : List Char := l.dropWhile jsWs

/-- `([^"]+)"`: a nonempty capture up to the closing quote. -/
def quoted1 (l : List Char) : Option (List Char × List Char) :=
  match h : l.takeWhile (fun c => !(c = '"')) with
  | [] => none
  | v =>
    match l.drop (l.takeWhile (fun c => !(c = '"'))).length with
    | [] => none
    | c :: r => if c = '"' then some (v, r) else none

/-- `([^"]*)"`: a possibly empty capture up to the closing quote. -/
def quoted0 (l : List Char) : Option (List Char × List Char) :=
  match l.drop (l.takeWhile (fun c => !(c = '"'))).length with
  | [] => none
  | c :: r =>
    if c = '"' then some (l.takeWhile (fun c => !(c = '"')), r) else none

/-- Lazy `(.*?)` without the `s` flag: the dot cannot cross a line
terminator; extend until the tail of the pattern matches. -/
def lazyScanNoNl (tail : List Char → Option (List Char)) :
    List Char → Option (List Char × List Char)
  | [] => none
  | c :: t =>
    match tail (c :: t) with
    | some r => some ([], r)
    | none =>
      if isLineTerm c then none
      else
        match lazyScanNoNl tail t with
        | some (v, r) => some (c :: v, r)
        | none => none

/-- Lazy `([\s\S]*?)`: extend over anything until the tail matches. -/
def lazyScanAny (tail : List Char → Option (List Char)) :
    List Char → Option (List Char × List Char)
  | [] => none
  | c :: t =>
    match tail (c :: t) with
    | some r => some ([], r)
    | none =>
      match lazyScanAny tail t with
      | some (v, r) => some (c :: v, r)
      | none => none

/-- The optional group `(?:ri:space-key="([^"]+)"\s+)?`.  Its follow-set
(`ri:content-title=`) cannot also begin the group, so committing to the
group when it fully matches is equivalent to the regex's backtracking. -/
def optSpaceKey (l : List Char) : Option (List Char) × List Char :=
  match litCI (str "ri:space-key=\"") l with
  | none => (none, l)
  | some t =>
    match quoted1 t with
    | none => (none, l)
    | some (key, t2) =>
      match ws1 t2 with
      | none => (none, l)
      | some t3 => (some key, t3)

/-- Shared opening `<ri:page\s+(?:ri:space-key="([^"]+)"\s+)?ri:content-title="([^"]+)"`. -/
def riPageOpen (l : List Char) : Option (Option (List Char) × List Char × List Char) :=
  match litCI (str "<ri:page") l with
  | none => none
  | some t =>
    match ws1 t with
    | none => none
    | some t2 =>
      match optSpaceKey t2 with
      | (sk, t3) =>
        match litCI (str "ri:content-title=\"") t3 with
        | none => none
        | some t4 =>
          match quoted1 t4 with
          | none => none
          | some (title, t5) => some (sk, title, t5)

/-- Page-link URL of lines 1237-1242 (and identical branches elsewhere). -/
def pageHref (sk : Option (List Char)) (title : List Char) : List Char :=
  match sk with
  | some k => str "/spaces/" ++ k ++ str "/pages/" ++ encodeURIComponent title
  | none => str "/pages/" ++ encodeURIComponent title

def aTag (href text : List Char) : List Char :=
  str "<a href=\"" ++ href ++ str "\">" ++ text ++ str "</a>"

/-- Tail `\]\]>\s*<\/ac:plain-text-link-body>\s*<\/ac:link>` shared by the
self-closing CDATA passes. -/
def linkTailBody (l : List Char) : Option (List Char) :=
  match litCI (str "]]>") l with
  | none => none
  | some t =>
    match litCI (str "</ac:plain-text-link-body>") (ws0 t) with
    | none => none
    | some t2 => litCI (str "</ac:link>") (ws0 t2)

/-- Lines 1214-1225: space link with CDATA body. -/
def linkPass1At (l : List Char) : Option (List Char × List Char) :=
  match litCI (str "<ac:link>") l with
  | none => none
  | some t =>
    match litCI (str "<ri:space") (ws0 t) with
    | none => none
    | some t1 =>
      match ws1 t1 with
      | none => none
      | some t2 =>
        match litCI (str "ri:space-key=\"") t2 with
        | none => none
        | some t3 =>
          match quoted1 t3 with
          | none => none
          | some (key, t4) =>
            match litCI (str "/>") (ws0 t4) with
            | none => none
            | some t5 =>
              match litCI (str "<ac:plain-text-link-body>") (ws0 t5) with
              | none => none
              | some t6 =>
                match litCI (str "<![CDATA[") (ws0 t6) with
                | none => none
                | some t7 =>
                  match lazyScanNoNl linkTailBody t7 with
                  | none => none
                  | some (txt, r) =>
                    some (aTag (str "/spaces/" ++ key)
                      (if jsTrim txt = [] then key else jsTrim txt), r)

/-- Lines 1228-1246: page link with CDATA body. -/
def linkPass2At (l : List Char) : Option (List Char × List Char) :=
  match litCI (str "<ac:link>") l with
  | none => none
  | some t =>
    match riPageOpen (ws0 t) with
    | none => none
    | some (sk, title, t5) =>
      match litCI (str "/>") (ws0 t5) with
      | none => none
      | some t6 =>
        match litCI (str "<ac:plain-text-link-body>") (ws0 t6) with
        | none => none
        | some t7 =>
          match litCI (str "<![CDATA[") (ws0 t7) with
          | none => none
          | some t8 =>
            match lazyScanNoNl linkTailBody t8 with
            | none => none
            | some (txt, r) =>
              some (aTag (pageHref sk title)
                (if jsTrim txt = [] then title else jsTrim txt), r)

/-- Lines 1249-1259: space link with an empty link body. -/
def linkPass3At (l : List Char) : Option (List Char × List Char) :=
  match litCI (str "<ac:link>") l with
  | none => none
  | some t =>
    match litCI (str "<ri:space") (ws0 t) with
    | none => none
    | some t1 =>
      match ws1 t1 with
      | none => none
      | some t2 =>
        match litCI (str "ri:space-key=\"") t2 with
        | none => none
        | some t3 =>
          match quoted1 t3 with
          | none => none
          | some (key, t4) =>
            match litCI (str "/>") (ws0 t4) with
            | none => none
            | some t5 =>
              match litCI (str "<ac:plain-text-link-body>") (ws0 t5) with
              | none => none
              | some t6 =>
                match litCI (str "</ac:plain-text-link-body>") (ws0 t6) with
                | none => none
                | some t7 =>
                  match litCI (str "</ac:link>") (ws0 t7) with
                  | none => none
                  | some r => some (aTag (str "/spaces/" ++ key) key, r)

/-- Lines 1262-1279: page link with an empty link body. -/
def linkPass4At (l : List Char) : Option (List Char × List Char) :=
  match litCI (str "<ac:link>") l with
  | none => none
  | some t =>
    match riPageOpen (ws0 t) with
    | none => none
    | some (sk, title, t5) =>
      match litCI (str "/>") (ws0 t5) with
      | none => none
      | some t6 =>
        match litCI (str "<ac:plain-text-link-body>") (ws0 t6) with
        | none => none
        | some t7 =>
          match litCI (str "</ac:plain-text-link-body>") (ws0 t7) with
          | none => none
          | some t8 =>
            match litCI (str "</ac:link>") (ws0 t8) with
            | none => none
            | some r => some (aTag (pageHref sk title) title, r)

/-- The optional group `(?:ri:content-title="([^"]*)")?` of the legacy
space-link pattern. -/
def optTitle0 (l : List Char) : Option (List Char) × List Char :=
  match litCI (str "ri:content-title=\"") l with
  | none => (none, l)
  | some t =>
    match quoted0 t with
    | none => (none, l)
    | some (v, r) => (some v, r)

def legacySpaceTail (l : List Char) : Option (List Char) :=
  match litCI (str "]]>") l with
  | none => none
  | some t =>
    match litCI (str "</ac:plain-text-link-body>") (ws0 t) with
    | none => none
    | some t2 =>
      match litCI (str "</ri:space>") (ws0 t2) with
      | none => none
      | some t3 => litCI (str "</ac:link>") (ws0 t3)

/-- Lines 1282-1293: legacy (non-self-closing) space link with CDATA. -/
def linkPass5At (l : List Char) : Option (List Char × List Char) :=
  match litCI (str "<ac:link>") l with
  | none => none
  | some t =>
    match litCI (str "<ri:space") (ws0 t) with
    | none => none
    | some t1 =>
      match ws1 t1 with
      | none => none
      | some t2 =>
        match litCI (str "ri:space-key=\"") t2 with
        | none => none
        | some t3 =>
          match quoted1 t3 with
          | none => none
          | some (key, t4) =>
            match optTitle0 (ws0 t4) with
            | (title, t5) =>
              match litCI (str ">") (ws0 t5) with
              | none => none
              | some t6 =>
                match litCI (str "<ac:plain-text-link-body>") (ws0 t6) with
                | none => none
                | some t7 =>
                  match litCI (str "<![CDATA[") (ws0 t7) with
                  | none => none
                  | some t8 =>
                    match lazyScanNoNl legacySpaceTail t8 with
                    | none => none
                    | some (txt, r) =>
                      some (aTag (str "/spaces/" ++ key)
                        (if jsTrim txt = [] then
                          (match title with
                            | some tt => if tt = [] then key else tt
                            | none => key)
                          else jsTrim txt), r)

def legacyPageTail (l : List Char) : Option (List Char) :=
  match litCI (str "]]>") l with
  | none => none
  | some t =>
    match litCI (str "</ac:plain-text-link-body>") (ws0 t) with
    | none => none
    | some t2 =>
      match litCI (str "</ri:page>") (ws0 t2) with
      | none => none
      | some t3 => litCI (str "</ac:link>") (ws0 t3)

/-- Lines 1296-1314: legacy (non-self-closing) page link with CDATA. -/
def linkPass6At (l : List Char) : Option (List Char × List Char) :=
  match litCI (str "<ac:link>") l with
  | none => none
  | some t =>
    match riPageOpen (ws0 t) with
    | none => none
    | some (sk, title, t5) =>
      match litCI (str ">") (ws0 t5) with
      | none => none
      | some t6 =>
        match litCI (str "<ac:plain-text-link-body>") (ws0 t6) with
        | none => none
        | some t7 =>
          match litCI (str "<![CDATA[") (ws0 t7) with
          | none => none
          | some t8 =>
            match lazyScanNoNl legacyPageTail t8 with
            | none => none
            | some (txt, r) =>
              some (aTag (pageHref sk title)
                (if jsTrim txt = [] then title else jsTrim txt), r)

/-- Lines 1317-1334: page link with no link body at all. -/
def linkPass7At (l : List Char) : Option (List Char × List Char) :=
  match litCI (str "<ac:link>") l with
  | none => none
  | some t =>
    match riPageOpen (ws0 t) with
    | none => none
    | some (sk, title, t5) =>
      match litCI (str "/>") (ws0 t5) with
      | none => none
      | some t6 =>
        match litCI (str "</ac:link>") (ws0 t6) with
        | none => none
        | some r => some (aTag (pageHref sk title) title, r)

/-- Lines 1337-1347: space link with no link body at all. -/
def linkPass8At (l : List Char) : Option (List Char × List Char) :=
  match litCI (str "<ac:link>") l with
  | none => none
  | some t =>
    match litCI (str "<ri:space") (ws0 t) with
    | none => none
    | some t1 =>
      match ws1 t1 with
      | none => none
      | some t2 =>
        match litCI (str "ri:space-key=\"") t2 with
        | none => none
        | some t3 =>
          match quoted1 t3 with
          | none => none
          | some (key, t4) =>
            match litCI (str "/>") (ws0 t4) with
            | none => none
            | some t5 =>
              match litCI (str "</ac:link>") (ws0 t5) with
              | none => none
              | some r => some (aTag (str "/spaces/" ++ key) key, r)

/-- The CDATA probe of the catch-all (lines 1359-1361). -/
def linkCdataTail (l : List Char) : Option (List Char) :=
  match litCI (str "]]>") l with
  | none => none
  | some t => litCI (str "</ac:plain-text-link-body>") (ws0 t)

def linkCdataAt (l : List Char) : Option (List Char) :=
  match litCI (str "<ac:plain-text-link-body") l with
  | none => none
  | some t =>
    match gtClose t with
    | none => none
    | some t2 =>
      match litCI (str "<![CDATA[") (ws0 t2) with
      | none => none
      | some t3 =>
        match lazyScanNoNl linkCdataTail t3 with
        | none => none
        | some (v, _) => some v

def findLinkCdata : List Char → Option (List Char)
  | [] => none
  | c :: t =>
    match linkCdataAt (c :: t) with
    | some v => some v
    | none => findLinkCdata t

/-- The plain-text probe of the catch-all (lines 1364-1367). -/
def linkTextAt (l : List Char) : Option (List Char) :=
  match litCI (str "<ac:plain-text-link-body") l with
  | none => none
  | some t =>
    match gtClose t with
    | none => none
    | some t2 =>
      match lazyScanNoNl (litCI (str "</ac:plain-text-link-body>")) t2 with
      | none => none
      | some (v, _) => some v

def findLinkText : List Char → Option (List Char)
  | [] => none
  | c :: t =>
    match linkTextAt (c :: t) with
    | some v => some v
    | none => findLinkText t

/-- The case-sensitive attribute probes of lines 1372-1373. -/
def attrAt (pat : List Char) (l : List Char) : Option (List Char) :=
  match lit pat l with
  | none => none
  | some t =>
    match quoted1 t with
    | none => none
    | some (v, _) => some v

def findAttr (pat : List Char) : List Char → Option (List Char)
  | [] => none
  | c :: t =>
    match attrAt pat (c :: t) with
    | some v => some v
    | none => findAttr pat t

/-- The catch-all replacement of lines 1350-1378. -/
def linkPass9Rep (content : List Char) : List Char :=
  let lt0 : List Char :=
    match findLinkCdata content with
    | some v => jsTrim v
    | none =>
      match findLinkText content with
      | some v => jsTrim v
      | none => []
  let lt1 : List Char :=
    if lt0 = [] then
      match findAttr (str "ri:content-title=\"") content with
      | some t => t
      | none =>
        match findAttr (str "ri:space-key=\"") content with
        | some k => k
        | none => str "Link"
    else lt0
  if lt1 = [] then str "<!-- Unprocessed Confluence Link -->" else lt1

/-- Lines 1350-1379: catch-all `<ac:link[^>]*>([\s\S]*?)<\/ac:link>`. -/
def linkPass9At (l : List Char) : Option (List Char × List Char) :=
  match litCI (str "<ac:link") l with
  | none => none
  | some t =>
    match gtClose t with
    | none => none
    | some t2 =>
      match lazyScanAny (litCI (str "</ac:link>")) t2 with
      | none => none
      | some (content, r) => some (linkPass9Rep content, r)

/-- src/markdown-converter.ts lines 1210-1382, `processConfluenceLinks`:
the nine passes in source order. -/
def processConfluenceLinks (l : List Char) : List Char :=
  replacePass linkPass9At (replacePass linkPass8At (replacePass linkPass7At
    (replacePass linkPass6At (replacePass linkPass5At (replacePass linkPass4At
      (replacePass linkPass3At (replacePass linkPass2At
        (replacePass linkPass1At l))))))))

/-- C6: a page link with CDATA display text `See here` normalizes to
`<a href="/pages/Target%20Page">See here</a>`, and the same macro with an
empty CDATA body uses the content title as display text. -/
theorem c6_link_normalization :
    processConfluenceLinks (str "<ac:link><ri:page ri:content-title=\"Target Page\"/><ac:plain-text-link-body><![CDATA[See here]]></ac:plain-text-link-body></ac:link>") =
      str "<a href=\"/pages/Target%20Page\">See here</a>" ∧
      processConfluenceLinks (str "<ac:link><ri:page ri:content-title=\"Target Page\"/><ac:plain-text-link-body><![CDATA[]]></ac:plain-text-link-body></ac:link>") =
        str "<a href=\"/pages/Target%20Page\">Target Page</a>" := by
  constructor
  · decide
  · decide

/-! ## Image reference classification (claim C7)

`downloadAndUpdateImages`, src/markdown-converter.ts lines 569-737, and
`extractFilenameFromConfluenceUrl`, lines 542-548.  The HTTP fetch and the
filesystem writes are external effects; the model below follows the code
path in which every fetch and write succeeds, so the returned counter is
the number of performed (successful) downloads. -/

def hexVal (c : Char) : Option Nat :=
  if '0' ≤ c && c ≤ '9' then some (c.toNat - 48)
  else if 'A' ≤ c && c ≤ 'F' then some (c.toNat - 55)
  else if 'a' ≤ c && c ≤ 'f' then some (c.toNat - 87)
  else none

/-- Percent-escapes become bytes, literal characters contribute their UTF-8
bytes; `decodeURIComponent` on the mixed string equals the UTF-8 decoding
of this byte stream (literal characters always re-decode to themselves). -/
def pctToBytes : List Char → Option (List Nat)
  | [] => some []
  | c :: t =>
    if c = '%' then
      match t with
      | h1 :: h2 :: t2 =>
        match hexVal h1, hexVal h2 with
        | some a, some b => (pctToBytes t2).map (fun bs => (a * 16 + b) :: bs)
        | _, _ => none
      | _ => none
    else (pctToBytes t).map (fun bs => utf8Bytes c ++ bs)

def utf8Decode : List Nat → Option (List Char)
  | [] => some []
  | b :: t =>
    if b < 0x80 then (utf8Decode t).map (fun cs => Char.ofNat b :: cs)
    else if b < 0xC2 then none
    else if b < 0xE0 then
      match t with
      | b2 :: t2 =>
        if 0x80 ≤ b2 && b2 < 0xC0 then
          (utf8Decode t2).map (fun cs => Char.ofNat ((b - 0xC0) * 0x40 + (b2 - 0x80)) :: cs)
        else none
      | _ => none
    else if b < 0xF0 then
      match t with
      | b2 :: b3 :: t2 =>
        if 0x80 ≤ b2 && b2 < 0xC0 && (0x80 ≤ b3 && b3 < 0xC0) then
          let n := (b - 0xE0) * 0x1000 + (b2 - 0x80) * 0x40 + (b3 - 0x80)
          if 0x800 ≤ n && (n < 0xD800 || 0xDFFF < n) then
            (utf8Decode t2).map (fun cs => Char.ofNat n :: cs)
          else none
        else none
      | _ => none
    else if b < 0xF5 then
      match t with
      | b2 :: b3 :: b4 :: t2 =>
        if 0x80 ≤ b2 && b2 < 0xC0 && (0x80 ≤ b3 && b3 < 0xC0) &&
            (0x80 ≤ b4 && b4 < 0xC0) then
          let n := (b - 0xF0) * 0x40000 + (b2 - 0x80) * 0x1000 +
            (b3 - 0x80) * 0x40 + (b4 - 0x80)
          if 0x10000 ≤ n && n ≤ 0x10FFFF then
            (utf8Decode t2).map (fun cs => Char.ofNat n :: cs)
          else none
        else none
      | _ => none
    else none

/-- JavaScript's `decodeURIComponent`; `none` models the thrown `URIError`
on malformed input (caught per-image by the surrounding try block). -/
def decodeURIComponentOpt (l : List Char) : Option (List Char) :=
  match pctToBytes l with
  | none => none
  | some bs => utf8Decode bs

/-- One match of `\/download\/(?:attachments|thumbnails)\/\d+\/([^?]+)` at
the current position (line 546). -/
def dlFileAt (l : List Char) : Option (List Char) :=
  match lit (str "/download/") l with
  | none => none
  | some t =>
    match (match lit (str "attachments") t with
           | some r => some r
           | none => lit (str "thumbnails") t) with
    | none => none
    | some t2 =>
      match lit (str "/") t2 with
      | none => none
      | some t3 =>
        match t3.takeWhile (fun c => '0' ≤ c && c ≤ '9') with
        | [] => none
        | ds =>
          match lit (str "/") (t3.drop (t3.takeWhile (fun c => '0' ≤ c && c ≤ '9')).length) with
          | none => none
          | some t4 =>
            match t4.takeWhile (fun c => !(c = '?')) with
            | [] => none
            | fn => some fn

def findDlFile : List Char → Option (List Char)
  | [] => none
  | c :: t =>
    match dlFileAt (c :: t) with
    | some v => some v
    | none => findDlFile t

/-- src/markdown-converter.ts lines 542-548, with the `decodeURIComponent`
failure (a thrown `URIError`) surfaced as `none`. -/
def extractFilenameOpt (url : List Char) : Option (List Char) :=
  match findDlFile url with
  | some fn => decodeURIComponentOpt fn
  | none => some (str "unknown")

/-- One match of the Markdown image pattern
`!\[([^\]]*)\]\(([^)\s]+)(?:\s+"[^"]*")?\)` (line 590); returns
(alt, url, rest).  When the optional title group matches but no ')'
follows, the regex backtracks to skip the group, which is also attempted. -/
def mdImageAt (l : List Char) : Option (List Char × List Char × List Char) :=
  match lit (str "![") l with
  | none => none
  | some t =>
    match lit (str "](") (t.drop (t.takeWhile (fun c => !(c = ']'))).length) with
    | none => none
    | some t2 =>
      match t2.takeWhile (fun c => !(c = ')') && !(jsWs c)) with
      | [] => none
      | url =>
        let t3 := t2.drop url.length
        let afterTitle : Option (List Char) :=
          match ws1 t3 with
          | none => none
          | some w =>
            match lit (str "\"") w with
            | none => none
            | some w2 =>
              match w2.drop (w2.takeWhile (fun c => !(c = '"'))).length with
              | [] => none
              | c :: r => if c = '"' then some r else none
        match afterTitle with
        | some t5 =>
          (match lit (str ")") t5 with
           | some r => some (t.takeWhile (fun c => !(c = ']')), url, r)
           | none =>
             match lit (str ")") t3 with
             | some r => some (t.takeWhile (fun c => !(c = ']')), url, r)
             | none => none)
        | none =>
          match lit (str ")") t3 with
          | some r => some (t.takeWhile (fun c => !(c = ']')), url, r)
          | none => none

/-- `src=["']([^"']+)["']` at the current position; returns the captured
URL.  The closing quote need not match the opening one, exactly as in the
source's character class. -/
def srcAt (l : List Char) : Option (List Char) :=
  match lit (str "src=") l with
  | none => none
  | some t =>
    match t with
    | [] => none
    | q :: t2 =>
      if q = '"' || q = '\x27' then
        match t2.takeWhile (fun c => !(c = '"') && !(c = '\x27')) with
        | [] => none
        | v =>
          match t2.drop (t2.takeWhile (fun c => !(c = '"') && !(c = '\x27'))).length with
          | [] => none
          | q2 :: _ => if q2 = '"' || q2 = '\x27' then some v else none
      else none

/-- The last `src=...` occurrence inside the tag body: the greedy `[^>]+`
before `src=` backtracks from the right, so the rightmost occurrence wins. -/
def findLastSrcAux : List Char → Option (List Char)
  | [] => none
  | c :: t =>
    match findLastSrcAux t with
    | some v => some v
    | none => srcAt (c :: t)

/-- One match of `<img[^>]+src=["']([^"']+)["'][^>]*>` (line 591); returns
(tag body, url, rest).  The whole match always ends at the first '>'. -/
def htmlImageAt (l : List Char) : Option (List Char × List Char × List Char) :=
  match lit (str "<img") l with
  | none => none
  | some t =>
    match t.drop (t.takeWhile (fun c => !(c = '>'))).length with
    | [] => none
    | _ :: rest =>
      match (match t.takeWhile (fun c => !(c = '>')) with
             | [] => none
             | _ :: inside1 => findLastSrcAux inside1) with
      | none => none
      | some url => some (t.takeWhile (fun c => !(c = '>')), url, rest)

/-- `alt=["']([^"']*)["']` (line 611). -/
def altAt (l : List Char) : Option (List Char) :=
  match lit (str "alt=") l with
  | none => none
  | some t =>
    match t with
    | [] => none
    | q :: t2 =>
      if q = '"' || q = '\x27' then
        match t2.drop (t2.takeWhile (fun c => !(c = '"') && !(c = '\x27'))).length with
        | [] => none
        | q2 :: _ =>
          if q2 = '"' || q2 = '\x27' then
            some (t2.takeWhile (fun c => !(c = '"') && !(c = '\x27')))
          else none
      else none

def findAlt : List Char → Option (List Char)
  | [] => none
  | c :: t =>
    match altAt (c :: t) with
    | some v => some v
    | none => findAlt t

/-- The successive-`exec` loop over the Markdown image pattern (lines
596-605): leftmost matches, resuming after each; entries are
(isMarkdown, fullMatch, alt, url). -/
def collectMdFuel : Nat → List Char → List (Bool × List Char × List Char × List Char)
  | _, [] => []
  | 0, _ => []
  | fuel + 1, c :: t =>
    match mdImageAt (c :: t) with
    | some (alt, url, rest) =>
      (true, (c :: t).take ((c :: t).length - rest.length), alt, url) ::
        collectMdFuel fuel rest
    | none => collectMdFuel fuel t

def collectMd (l : List Char) : List (Bool × List Char × List Char × List Char) :=
  collectMdFuel l.length l

/-- The `exec` loop over the HTML image pattern (lines 608-619). -/
def collectHtmlFuel : Nat → List Char → List (Bool × List Char × List Char × List Char)
  | _, [] => []
  | 0, _ => []
  | fuel + 1, c :: t =>
    match htmlImageAt (c :: t) with
    | some (inside, url, rest) =>
      (false, str "<img" ++ inside ++ str ">",
        (match findAlt (str "<img" ++ inside ++ str ">") with
         | some a => a
         | none => []), url) :: collectHtmlFuel fuel rest
    | none => collectHtmlFuel fuel t

def collectHtml (l : List Char) : List (Bool × List Char × List Char × List Char) :=
  collectHtmlFuel l.length l

def includesStr (pat : List Char) : List Char → Bool
  | [] => pat.isEmpty
  | c :: t => begins pat (c :: t) || includesStr pat t

/-- `fullMatch.replace(/src=["'][^"']+["']/, ...)` needs the rest after a
`src` attribute match. -/
def srcSpanAt (l : List Char) : Option (List Char) :=
  match lit (str "src=") l with
  | none => none
  | some t =>
    match t with
    | [] => none
    | q :: t2 =>
      if q = '"' || q = '\x27' then
        match t2.takeWhile (fun c => !(c = '"') && !(c = '\x27')) with
        | [] => none
        | _ =>
          match t2.drop (t2.takeWhile (fun c => !(c = '"') && !(c = '\x27'))).length with
          | [] => none
          | q2 :: r => if q2 = '"' || q2 = '\x27' then some r else none
      else none

def replaceFirstSrc (rep : List Char) : List Char → List Char
  | [] => []
  | c :: t =>
    match srcSpanAt (c :: t) with
    | some r => (str "src=\"" ++ rep ++ str "\"") ++ r
    | none => c :: replaceFirstSrc rep t

/-- Processing of one discovered image reference (lines 624-720) with the
fetch/write modelled as succeeding.  `String.replace` with a string pattern
replaces the first occurrence; none of the replacements built here contain
the `$` substitution patterns, so plain splicing is exact. -/
def processImage (baseUrl : List Char) (md : List Char) (count : Nat)
    (img : Bool × List Char × List Char × List Char) : List Char × Nat :=
  match img with
  | (isMd, full, alt, url) =>
    if begins (str "./") url || begins (str "../") url then (md, count)
    else if begins (str "http") url && !(includesStr baseUrl url) then (md, count)
    else if !(includesStr (str "/download/") url) then (md, count)
    else
      match extractFilenameOpt url with
      | none => (md, count)
      | some original =>
        let relativePath := str "./images/" ++ sanitizeImageFilename original
        if isMd then
          (replaceFirst full (str "![" ++ alt ++ str "](" ++ relativePath ++ str ")") md,
            count + 1)
        else
          (replaceFirst full (replaceFirstSrc relativePath full) md, count + 1)

/-- src/markdown-converter.ts lines 569-737, `downloadAndUpdateImages`,
with the HTTP/filesystem effects abstracted to the all-success path:
returns the rewritten markdown and the download count. -/
def downloadAndUpdateImages (markdown baseUrl : List Char) : List Char × Nat :=
  (collectMd markdown ++ collectHtml markdown).foldl
    (fun acc img => processImage baseUrl acc.1 acc.2 img) (markdown, 0)

/-- The Markdown document of the C7 scenario. -/
def c7Markdown : List Char :=
  str "# Test\n\n![Screenshot](/download/attachments/123456/screenshot.png \"Page Screenshot\")\n\n![External](https://example.com/image.png)\n\n![Local](./local-image.png)\n"

/-- C7: against base URL `https://fake.example.com`, the attachment
reference is rewritten to `./images/screenshot.png`, the external and
local references are left byte-for-byte unchanged, and exactly one
download is performed. -/
theorem c7_image_classification :
    (downloadAndUpdateImages c7Markdown (str "https://fake.example.com")).2 = 1 ∧
      (downloadAndUpdateImages c7Markdown (str "https://fake.example.com")).1 =
        str "# Test\n\n![Screenshot](./images/screenshot.png)\n\n![External](https://example.com/image.png)\n\n![Local](./local-image.png)\n" := by
  constructor
  · decide
  · decide

/-! ## Table rendering and the header separator (claim C1)

The `tableRow` rule, src/markdown-converter.ts lines 414-469, together
with the `confluenceTable` rule (lines 390-395).  A cell is
(isTh, textContent, style attribute); a table is a list of sections
(thead/tbody, or the table itself for bare rows), each a list of rows.
In the DOM, `node.parentElement?.firstElementChild === node` holds
exactly for the first row of its section, and
`node.parentElement?.parentElement?.firstElementChild?.firstElementChild
 === node` for the first row of the first section, so `isFirstRow`
reduces to "index 0 within its section".  The engine composition
(children's outputs concatenated in order; the section rule returns its
content unchanged) is modelled from the spec's description of the
conversion pipeline. -/

abbrev Cell := Bool × List Char × Option (List Char)

def digitChar (c : Char) : Bool := '0' ≤ c && c ≤ '9'

def alnum (c : Char) : Bool :=
  ('a' ≤ c && c ≤ 'z') || ('A' ≤ c && c ≤ 'Z') || digitChar c

/-- `parseInt` on a captured string of decimal digits. -/
def digitsVal (l : List Char) : Nat := l.foldl (fun a c => a * 10 + (c.toNat - 48)) 0

/-- One match of `background-color:\s*([^;]+)` (flag `i`) at the current
position (line 423).  When everything after the greedy `\s*` is ';' or the
end, the regex backtracks one whitespace character into `[^;]+`. -/
def bgcAt (l : List Char) : Option (List Char) :=
  match litCI (str "background-color:") l with
  | none => none
  | some t =>
    match (t.drop (t.takeWhile jsWs).length).takeWhile (fun c => !(c = ';')) with
    | [] =>
      match t.takeWhile jsWs with
      | [] => none
      | c :: cs => some [(c :: cs).getLastD ' ']
    | v => some v

def findBgc : List Char → Option (List Char)
  | [] => none
  | c :: t =>
    match bgcAt (c :: t) with
    | some v => some v
    | none => findBgc t

/-- One match of `rgb\((\d+),\s*(\d+),\s*(\d+)\)` (line 431); the three
captured digit strings. -/
def rgbAt (l : List Char) : Option (List Char × List Char × List Char) :=
  match lit (str "rgb(") l with
  | none => none
  | some t =>
    match t.takeWhile digitChar with
    | [] => none
    | d1 =>
      match lit (str ",") (t.drop (t.takeWhile digitChar).length) with
      | none => none
      | some t2 =>
        match (t2.dropWhile jsWs).takeWhile digitChar with
        | [] => none
        | d2 =>
          match lit (str ",") ((t2.dropWhile jsWs).drop ((t2.dropWhile jsWs).takeWhile digitChar).length) with
          | none => none
          | some t3 =>
            match (t3.dropWhile jsWs).takeWhile digitChar with
            | [] => none
            | d3 =>
              match lit (str ")") ((t3.dropWhile jsWs).drop ((t3.dropWhile jsWs).takeWhile digitChar).length) with
              | none => none
              | some _ => some (d1, d2, d3)

def findRgb : List Char → Option (List Char × List Char × List Char)
  | [] => none
  | c :: t =>
    match rgbAt (c :: t) with
    | some v => some v
    | none => findRgb t

/-- Lines 418-447: trim the cell text, substitute ' ' when it is empty,
and append the color-class token derived from a `background-color` style. -/
def renderCell (cell : Cell) : List Char :=
  match cell with
  | (_, txt, styleOpt) =>
    let trimmed := jsTrim txt
    let style := match styleOpt with | some s => s | none => []
    let cellText := if trimmed.isEmpty then str " " else trimmed
    match findBgc style with
    | none => cellText
    | some raw =>
      match findRgb (jsTrim raw) with
      | some (d1, d2, d3) =>
        match getColorName (digitsVal d1) (digitsVal d2) (digitsVal d3) with
        | some name => cellText ++ str " \x7b." ++ name ++ str "\x7d"
        | none =>
          cellText ++ str " \x7b.color-" ++ d1 ++ str "-" ++ d2 ++ str "-" ++
            d3 ++ str "\x7d"
      | none =>
        cellText ++ str " \x7b.bg-" ++
          (jsTrim raw).map (fun c => if alnum c then c else '-') ++ str "\x7d"

/-- `Array.prototype.join(sep)`. -/
def joinSep (sep : List Char) : List (List Char) → List Char
  | [] => []
  | [x] => x
  | x :: y :: t => x ++ sep ++ joinSep sep (y :: t)

/-- Line 449: `'| ' + cells.join(' | ') + ' |'`. -/
def rowLineOf (r : List Cell) : List Char :=
  str "| " ++ joinSep (str " | ") (r.map renderCell) ++ str " |"

/-- Line 463: the separator under a header row with n cells, without its
leading newline. -/
def sepLineOf (n : Nat) : List Char :=
  str "| " ++ joinSep (str " | ") (List.replicate n (str "---")) ++ str " |"

/-- Lines 451-467: the row, the separator when the row has a `th` child
and is the first row of its section, and the trailing newline. -/
def renderRow (isFirst : Bool) (r : List Cell) : List Char :=
  if (r.any fun c => c.1) && isFirst then
    rowLineOf r ++ str "\n" ++ sepLineOf (r.map renderCell).length ++ str "\n"
  else rowLineOf r ++ str "\n"

def renderRowsAux : Bool → List (List Cell) → List Char
  | _, [] => []
  | isFirst, r :: rest => renderRow isFirst r ++ renderRowsAux false rest

/-- Lines 390-395: `'\n\n' + content + '\n\n'` around the concatenated
section contents. -/
def tableMarkdown (t : List (List (List Cell))) : List Char :=
  str "\n\n" ++ (t.map (renderRowsAux true)).flatten ++ str "\n\n"

/-- Splitting on newline characters, as the line structure the spec's
anchored pattern is matched against. -/
def linesSplit : List Char → List (List Char)
  | [] => [[]]
  | c :: t =>
    if c = '\n' then [] :: linesSplit t
    else
      match linesSplit t with
      | [] => [[c]]
      | l :: ls => (c :: l) :: ls

/-- One `( *---+ *\|)` group then either the end or further groups, with
fuel bounding the group count. -/
def sepTailFuel : Nat → List Char → Bool
  | 0, _ => false
  | fuel + 1, l =>
    let l1 := l.dropWhile (fun c => c = ' ')
    let ds := l1.takeWhile (fun c => c = '-')
    if ds.length < 3 then false
    else
      match (l1.drop ds.length).dropWhile (fun c => c = ' ') with
      | c :: rest => c = '|' && (rest.isEmpty || sepTailFuel fuel rest)
      | [] => false

/-- The spec's separator-line pattern `^\|( *---+ *\|)+$`. -/
def isSepLine : List Char → Bool
  | [] => false
  | c :: t => c = '|' && sepTailFuel (t.length + 1) t

def sepCount (md : List Char) : Nat := ((linesSplit md).filter isSepLine).length

def rowTdOnly (r : List Cell) : Bool := r.all fun c => !c.1

/-- The claim's hypothesis on a table: the first row contains a `th` cell
and every later row contains only `td` cells. -/
def headerTableShape (t : List (List (List Cell))) : Bool :=
  match t with
  | (r0 :: rs) :: ss =>
    (r0.any fun c => c.1) && rs.all rowTdOnly && ss.all fun s => s.all rowTdOnly
  | _ => false

/-- A single-column table: header row "Header", then a td whose text is
literally `---`. -/
def c1Table : List (List (List Cell)) :=
  [[[(true, str "Header", none)], [(false, str "---", none)]]]

/-- C1 counterexample: `c1Table` satisfies the claim's hypothesis (first
row has a `th`, the only later row is td-only), yet the rendered table
contains two lines matching the separator pattern: the inserted separator
and the data row `| --- |` itself. -/
theorem c1_counterexample :
    headerTableShape c1Table = true ∧ sepCount (tableMarkdown c1Table) = 2 := by
  constructor
  · decide
  · decide

/-- A row renders to a line without newlines that does not itself match
the separator pattern. -/
def cleanRow (r : List Cell) : Bool :=
  ((rowLineOf r).all fun c => !(c = '\n')) && !(isSepLine (rowLineOf r))

def sepChunk : Nat → List Char
  | 0 => str " --- |"
  | n + 1 => str " --- |" ++ sepChunk n

theorem joinRep (n : Nat) :
    str " " ++ joinSep (str " | ") (List.replicate (n + 1) (str "---")) ++ str " |" =
      sepChunk n := by
  induction n with
  | zero => decide
  | succ m ih =>
    rw [List.replicate_succ] at ih ⊢
    rw [List.replicate_succ]
    show str " " ++ (str "---" ++ str " | " ++
      joinSep (str " | ") (str "---" :: List.replicate m (str "---"))) ++ str " |" =
      str " --- |" ++ sepChunk m
    rw [← ih]
    simp only [List.append_assoc]
    rfl

theorem sepLineOf_succ (n : Nat) : sepLineOf (n + 1) = '|' :: sepChunk n := by
  rw [← joinRep n]
  rfl

theorem sepChunk_isEmpty (n : Nat) : (sepChunk n).isEmpty = false := by
  cases n <;> rfl

theorem sepChunk_len (n : Nat) : (sepChunk n).length = 6 * n + 6 := by
  induction n with
  | zero => rfl
  | succ m ih =>
    show (str " --- |" ++ sepChunk m).length = 6 * (m + 1) + 6
    rw [List.length_append, ih]
    simp [str]
    omega

theorem sepChunk_no_nl (n : Nat) :
    ((sepChunk n).all fun c => !(c = '\n')) = true := by
  induction n with
  | zero => decide
  | succ m ih =>
    show ((str " --- |" ++ sepChunk m).all fun c => !(c = '\n')) = true
    rw [List.all_append, ih]
    decide

theorem sepTailFuel_step (fuel : Nat) (x : List Char) :
    sepTailFuel (fuel + 1) (' ' :: '-' :: '-' :: '-' :: ' ' :: '|' :: x) =
      (x.isEmpty || sepTailFuel fuel x) := by
  rfl

theorem sepTailFuel_chunk (n : Nat) :
    ∀ fuel, sepTailFuel (fuel + n + 1) (sepChunk n) = true := by
  induction n with
  | zero =>
    intro fuel
    have h : fuel + 0 + 1 = fuel + 1 := by omega
    rw [h]
    rw [show sepChunk 0 =
      ' ' :: '-' :: '-' :: '-' :: ' ' :: '|' :: ([] : List Char) from rfl]
    rw [sepTailFuel_step]
    rfl
  | succ m ih =>
    intro fuel
    have h : fuel + (m + 1) + 1 = (fuel + m + 1) + 1 := by omega
    rw [h]
    rw [show sepChunk (m + 1) =
      ' ' :: '-' :: '-' :: '-' :: ' ' :: '|' :: sepChunk m from rfl]
    rw [sepTailFuel_step, sepChunk_isEmpty m, Bool.false_or]
    exact ih fuel

theorem isSepLine_sep (n : Nat) : isSepLine (sepLineOf (n + 1)) = true := by
  rw [sepLineOf_succ]
  simp only [isSepLine]
  rw [sepChunk_len]
  have h : 6 * n + 6 + 1 = (5 * n + 6) + n + 1 := by omega
  rw [h, sepTailFuel_chunk n (5 * n + 6)]
  simp

theorem sepLineOf_no_nl (n : Nat) :
    ((sepLineOf (n + 1)).all fun c => !(c = '\n')) = true := by
  rw [sepLineOf_succ, List.all_cons, sepChunk_no_nl]
  decide

theorem linesSplit_append_nl :
    ∀ (a b : List Char), (a.all fun c => !(c = '\n')) = true →
      linesSplit (a ++ '\n' :: b) = a :: linesSplit b := by
  intro a
  induction a with
  | nil => intro b _; simp [linesSplit]
  | cons x xs ih =>
    intro b h
    rw [List.all_cons, Bool.and_eq_true] at h
    have hx : ¬(x = '\n') := by
      intro hc
      rw [hc] at h
      simp at h
    show linesSplit (x :: (xs ++ '\n' :: b)) = (x :: xs) :: linesSplit b
    rw [linesSplit, if_neg hx, ih b h.2]

theorem linesSplit_flat :
    ∀ (ls : List (List Char)) (b : List Char),
      (ls.all fun l => l.all fun c => !(c = '\n')) = true →
      linesSplit ((ls.map fun l => l ++ str "\n").flatten ++ b) = ls ++ linesSplit b := by
  intro ls
  induction ls with
  | nil => intro b _; simp
  | cons l rest ih =>
    intro b h
    rw [List.all_cons, Bool.and_eq_true] at h
    rw [List.map_cons, List.flatten_cons, List.append_assoc]
    have hstep : l ++ str "\n" ++ ((rest.map fun l => l ++ str "\n").flatten ++ b) =
        l ++ '\n' :: ((rest.map fun l => l ++ str "\n").flatten ++ b) := by
      simp only [List.append_assoc]
      rfl
    rw [hstep, linesSplit_append_nl _ _ h.1, ih b h.2]
    rfl

theorem any_isTh_false (r : List Cell) (h : rowTdOnly r = true) :
    (r.any fun c => c.1) = false := by
  induction r with
  | nil => rfl
  | cons c t ih =>
    rw [rowTdOnly, List.all_cons, Bool.and_eq_true] at h
    rw [List.any_cons, ih h.2, Bool.or_false]
    cases hc : c.1
    · rfl
    · rw [hc] at h; simp at h

theorem renderRowsAux_td (rs : List (List Cell)) :
    ∀ f, (rs.all rowTdOnly) = true →
      renderRowsAux f rs = (rs.map fun r => rowLineOf r ++ str "\n").flatten := by
  induction rs with
  | nil => intro f _; rfl
  | cons r rest ih =>
    intro f h
    rw [List.all_cons, Bool.and_eq_true] at h
    rw [renderRowsAux, List.map_cons, List.flatten_cons, ih false h.2]
    have hrow : renderRow f r = rowLineOf r ++ str "\n" := by
      rw [renderRow, any_isTh_false r h.1]
      simp
    rw [hrow]

theorem sections_td (ss : List (List (List Cell))) :
    (ss.all fun s => s.all rowTdOnly) = true →
      (ss.map (renderRowsAux true)).flatten =
        (((ss.map fun s => s.map rowLineOf).flatten).map fun l => l ++ str "\n").flatten := by
  induction ss with
  | nil => intro _; rfl
  | cons s rest ih =>
    intro h
    rw [List.all_cons, Bool.and_eq_true] at h
    rw [List.map_cons, List.flatten_cons, ih h.2, List.map_cons, List.flatten_cons,
      List.map_append, List.flatten_append, renderRowsAux_td s true h.1, List.map_map]
    rfl

theorem bool_not_true (b : Bool) (h : (!b) = true) : b = false := by
  cases b
  · rfl
  · exact absurd h (by decide)

theorem filter_false_nil (p : List Char → Bool) :
    ∀ (L : List (List Char)), (∀ l ∈ L, p l = false) → L.filter p = [] := by
  intro L
  induction L with
  | nil => intro _; rfl
  | cons x t ih =>
    intro h
    rw [List.filter_cons, h x (List.mem_cons_self x t)]
    exact ih fun l hl => h l (List.mem_cons_of_mem x hl)

/-- C1 amended: for a table whose first row has at least one `th` cell,
whose later rows are td-only, and whose rows each render to a
newline-free line not itself of separator shape, the rendered table has
exactly one separator line and it sits immediately after the first row's
line, with all remaining row lines following in order. -/
theorem c1_amended (r0 : List Cell) (rs : List (List Cell))
    (ss : List (List (List Cell)))
    (hth : (r0.any fun c => c.1) = true)
    (htd1 : (rs.all rowTdOnly) = true)
    (htd2 : (ss.all fun s => s.all rowTdOnly) = true)
    (hc0 : cleanRow r0 = true)
    (hc1 : (rs.all cleanRow) = true)
    (hc2 : (ss.all fun s => s.all cleanRow) = true) :
    linesSplit (tableMarkdown ((r0 :: rs) :: ss)) =
      [] :: [] :: rowLineOf r0 :: sepLineOf r0.length ::
        ((rs.map rowLineOf ++ (ss.map fun s => s.map rowLineOf).flatten) ++
          [[], [], []]) ∧
    sepCount (tableMarkdown ((r0 :: rs) :: ss)) = 1 := by
  rw [cleanRow, Bool.and_eq_true] at hc0
  obtain ⟨m, hm⟩ : ∃ m, r0.length = m + 1 := by
    cases r0 with
    | nil => simp at hth
    | cons c t => exact ⟨t.length, rfl⟩
  have hclean1 : ((rs.map rowLineOf).all fun l => l.all fun c => !(c = '\n')) = true := by
    rw [List.all_eq_true]
    intro l hl
    rw [List.mem_map] at hl
    obtain ⟨r, hr, hrl⟩ := hl
    have := (List.all_eq_true.mp hc1) r hr
    rw [cleanRow, Bool.and_eq_true] at this
    rw [← hrl]
    exact this.1
  have hclean2 : (((ss.map fun s => s.map rowLineOf).flatten).all
      fun l => l.all fun c => !(c = '\n')) = true := by
    rw [List.all_eq_true]
    intro l hl
    rw [List.mem_flatten] at hl
    obtain ⟨L, hL, hlL⟩ := hl
    rw [List.mem_map] at hL
    obtain ⟨s, hs, hsL⟩ := hL
    rw [← hsL, List.mem_map] at hlL
    obtain ⟨r, hr, hrl⟩ := hlL
    have := (List.all_eq_true.mp ((List.all_eq_true.mp hc2) s hs)) r hr
    rw [cleanRow, Bool.and_eq_true] at this
    rw [← hrl]
    exact this.1
  have hsep1 : ∀ l ∈ rs.map rowLineOf, isSepLine l = false := by
    intro l hl
    rw [List.mem_map] at hl
    obtain ⟨r, hr, hrl⟩ := hl
    have := (List.all_eq_true.mp hc1) r hr
    rw [cleanRow, Bool.and_eq_true] at this
    rw [← hrl]
    exact bool_not_true _ this.2
  have hsep2 : ∀ l ∈ (ss.map fun s => s.map rowLineOf).flatten, isSepLine l = false := by
    intro l hl
    rw [List.mem_flatten] at hl
    obtain ⟨L, hL, hlL⟩ := hl
    rw [List.mem_map] at hL
    obtain ⟨s, hs, hsL⟩ := hL
    rw [← hsL, List.mem_map] at hlL
    obtain ⟨r, hr, hrl⟩ := hlL
    have := (List.all_eq_true.mp ((List.all_eq_true.mp hc2) s hs)) r hr
    rw [cleanRow, Bool.and_eq_true] at this
    rw [← hrl]
    exact bool_not_true _ this.2
  have hbody : tableMarkdown ((r0 :: rs) :: ss) =
      '\n' :: '\n' :: (rowLineOf r0 ++ '\n' :: (sepLineOf r0.length ++ '\n' ::
        ((((rs.map rowLineOf ++ (ss.map fun s => s.map rowLineOf).flatten).map
          fun l => l ++ str "\n").flatten) ++ ['\n', '\n']))) := by
    rw [tableMarkdown, List.map_cons, List.flatten_cons, renderRowsAux,
      renderRowsAux_td rs false htd1, sections_td ss htd2]
    have hfirst : renderRow true r0 =
        rowLineOf r0 ++ str "\n" ++ sepLineOf r0.length ++ str "\n" := by
      rw [renderRow, hth]
      simp [List.length_map]
    rw [hfirst, List.map_append, List.flatten_append, List.map_map]
    simp only [List.append_assoc]
    rfl
  have hlines : linesSplit (tableMarkdown ((r0 :: rs) :: ss)) =
      [] :: [] :: rowLineOf r0 :: sepLineOf r0.length ::
        ((rs.map rowLineOf ++ (ss.map fun s => s.map rowLineOf).flatten) ++
          [[], [], []]) := by
    rw [hbody]
    rw [show linesSplit ('\n' :: '\n' :: (rowLineOf r0 ++ '\n' ::
        (sepLineOf r0.length ++ '\n' ::
        ((((rs.map rowLineOf ++ (ss.map fun s => s.map rowLineOf).flatten).map
          fun l => l ++ str "\n").flatten) ++ ['\n', '\n'])))) =
        [] :: [] :: linesSplit ((rowLineOf r0 ++ '\n' ::
        (sepLineOf r0.length ++ '\n' ::
        ((((rs.map rowLineOf ++ (ss.map fun s => s.map rowLineOf).flatten).map
          fun l => l ++ str "\n").flatten) ++ ['\n', '\n'])))) from rfl]
    rw [linesSplit_append_nl _ _ hc0.1]
    rw [hm, linesSplit_append_nl _ _ (sepLineOf_no_nl m)]
    rw [linesSplit_flat _ _ (by rw [List.all_append, hclean1, hclean2]; rfl)]
    rfl
  refine ⟨hlines, ?_⟩
  rw [sepCount, hlines]
  have h0 : isSepLine ([] : List Char) = false := rfl
  have hr0 : isSepLine (rowLineOf r0) = false := bool_not_true _ hc0.2
  rw [List.filter_cons, List.filter_cons, List.filter_cons, List.filter_cons]
  rw [h0, hr0, hm, isSepLine_sep m, List.filter_append, List.filter_append]
  rw [filter_false_nil _ _ hsep1, filter_false_nil _ _ hsep2]
  rfl

/-- C1 witness: a two-column header table over one ordinary data row. -/
theorem c1_amended_witness :
    linesSplit (tableMarkdown
        ([[(true, str "Name", none), (true, str "Status", none)] ::
          [[(false, str "Alpha", none), (false, str "ok", none)]]])) =
      [] :: [] :: rowLineOf [(true, str "Name", none), (true, str "Status", none)] ::
        sepLineOf ([(true, str "Name", (none : Option (List Char))),
          (true, str "Status", none)].length) ::
        (([[(false, str "Alpha", none), (false, str "ok", none)]].map rowLineOf ++
          (([] : List (List (List Cell))).map fun s => s.map rowLineOf).flatten) ++
          [[], [], []]) ∧
    sepCount (tableMarkdown
        ([[(true, str "Name", none), (true, str "Status", none)] ::
          [[(false, str "Alpha", none), (false, str "ok", none)]]])) = 1 :=
  c1_amended [(true, str "Name", none), (true, str "Status", none)]
    [[(false, str "Alpha", none), (false, str "ok", none)]] []
    (by decide) (by decide) (by decide) (by decide) (by decide) (by decide)

end ConfluenceMd
